import Mathlib

/-!
# Verification of the `fastentity` matching engine

A shallow embedding of `src/fastentity.go` (package `fastentity`): the
tokenizer, the sliding window of word spans, the hash-bucketed phrase
dictionary, and the single-pass search.  Go `[]rune` values are modelled as
`List Char` (Lean `Char` is a Unicode code point, as is Go `rune`); Go maps
are modelled as association lists with unique keys; Go `string` hash keys are
modelled as their code-point sequences (`List Char`), since Go compares
strings by their contents.  A Go panic is modelled by `Option` (`none` =
panic).  `unicode.ToLower`, `unicode.IsPunct` and `unicode.IsSpace` are
modelled on the ASCII range (by the published Unicode general categories);
all inputs considered in the theorems below stay in that range, and no claim
depends on the case table outside it.
-/

namespace Fastentity

/-- Models `unicode.ToLower` (restricted to the ASCII range: `A`-`Z` map to
`a`-`z`, every other code point in range is fixed). -/
def toLower (c : Char) : Char :=
  if 'A' ≤ c ∧ c ≤ 'Z' then Char.ofNat (c.toNat + 32) else c

/-- Models `unicode.IsSpace` on the ASCII range: the White_Space code points
below U+0080 (tab, LF, VT, FF, CR, space). -/
def isSpace (c : Char) : Bool :=
  c = ' ' || c = '\t' || c = '\n' || c = '\x0b' || c = '\x0c' || c = '\r'

/-- Models `unicode.IsPunct` on the ASCII range: the code points below U+0080
whose Unicode general category is P (Pc, Pd, Pe, Po, Ps); note that
`$ + < = > ^ \x60 | ~` are category S and are not punctuation. -/
def isPunct (c : Char) : Bool :=
  c = '!' || c = '"' || c = '#' || c = '%' || c = '&' || c = (Char.ofNat 39) ||
  c = '(' || c = ')' || c = '*' || c = ',' || c = '-' || c = '.' ||
  c = '/' || c = ':' || c = ';' || c = '?' || c = '@' || c = '[' ||
  c = '\\' || c = ']' || c = '_' || c = '\x7b' || c = '\x7d'

/-- A separator, as classified at `src/fastentity.go:131`:
`unicode.IsPunct(r) || unicode.IsSpace(r)`. -/
def isSep (c : Char) : Bool := isPunct c || isSpace c

/-- A decimal digit as a character (used to model `fmt.Sprintf("%03d", ·)`). -/
def digitChar : Nat → Char
  | 0 => '0' | 1 => '1' | 2 => '2' | 3 => '3' | 4 => '4'
  | 5 => '5' | 6 => '6' | 7 => '7' | 8 => '8' | 9 => '9'
  | _ => '*'

/-- Decimal digits of `n`, least significant first (empty for `0`). -/
def digitsRev (n : Nat) : List Nat :=
  if h : n = 0 then [] else n % 10 :: digitsRev (n / 10)
decreasing_by exact Nat.div_lt_self (Nat.pos_of_ne_zero h) (by omega)

/-- The decimal representation of `n` as characters, most significant first
(`"0"` for `0`). -/
def decimal (n : Nat) : List Char :=
  if n = 0 then ['0'] else ((digitsRev n).reverse).map digitChar

/-- Models `fmt.Sprintf("%03d", n)`: the decimal representation of `n`,
left-padded with `'0'` to a minimum width of 3. -/
def pad3 (n : Nat) : List Char :=
  if n < 1000 then [digitChar (n / 100), digitChar (n / 10 % 10), digitChar (n % 10)]
  else decimal n

/-- Models `hash` (`src/fastentity.go:94-102`): the lowercased first
`min 3 (length)` characters followed by `%03d` of the length.  Go indexes
`rs[0]` unconditionally, so the empty sequence panics (`none`). -/
def hash (rs : List Char) : Option (List Char) :=
  match rs with
  | r0 :: r1 :: r2 :: _ =>
      some ([toLower r0, toLower r1, toLower r2] ++ pad3 rs.length)
  | [r0, r1] => some ([toLower r0, toLower r1] ++ pad3 2)
  | [r0] => some ([toLower r0] ++ pad3 1)
  | [] => none

/-- Association-list lookup (models Go map read, `none` for a missing key). -/
def lookupA {α : Type} [DecidableEq α] {β : Type} :
    List (α × β) → α → Option β
  | [], _ => none
  | (k, v) :: rest, k' => if k = k' then some v else lookupA rest k'

/-- Association-list update-or-insert (models a Go map write: the first
binding of `k` is replaced; a missing key is appended). -/
def updA {α : Type} [DecidableEq α] {β : Type} :
    List (α × β) → α → (Option β → β) → List (α × β)
  | [], k, f => [(k, f none)]
  | (k', v) :: rest, k, f =>
      if k' = k then (k', f (some v)) :: rest else (k', v) :: updA rest k f

/-- A reported match.  `src/fastentity.go`'s `find` reports the slice
`rs[p1[left]:p2[right]]` of the input; the repository's `Entity` record
(`src/README.md:128-131`) pairs that slice with its code-point offset
`p1[left]`, which the slice's position determines.  We carry both. -/
structure Entity where
  text : List Char
  offset : Nat
deriving DecidableEq, Repr

/-- Models `Group` (`src/fastentity.go:37-42`): bucket index from hash key to
the list of registered phrases, plus the maximum phrase length seen. -/
structure Group where
  name : String
  entities : List (List Char × List (List Char))
  maxLen : Nat
deriving DecidableEq, Repr

/-- Models `MaxEntityLen` (`src/fastentity.go:19`). -/
def MaxEntityLen : Nat := 30

/-- Models `shift` (`src/fastentity.go:45-53`) with the eviction test pinned
at the initial allocation `cap = 20` of `src/fastentity.go:124`
(`make([]pair, 0, 20)`): push `n` at the back; at 20 entries the oldest
(front) element is popped and returned.  This is the fixed-capacity ring
buffer the design intends.  The program itself tests `len(s) == cap(s)`
against the slice's live capacity, which the reallocation inside
`append(s[1:], n)` grows after the first eviction (`cap(s[1:]) = 19` cannot
hold 20 entries), so the real window can exceed 20 entries; `shiftLive`
below models that live-capacity behaviour, and `C3_window_overflow` proves
the divergence.  The two models agree on the newest 20 window entries at
every step, and the backward walk's `MaxEntityLen` break fires within the
newest 16 entries (window starts are at least 2 apart), so every reported
match is identical under either model. -/
def shift (n : Nat × Nat) (s : List (Nat × Nat)) : (Nat × Nat) × List (Nat × Nat) :=
  if s.length = 0 then ((0, 0), s ++ [n])
  else if s.length = 20 then (s.headI, s.tail ++ [n])
  else (s.headI, s ++ [n])

/-- Per-search results: group name to accumulated matches (Go
`map[string][][]rune` / `map[string][]Entity`). -/
abbrev Results : Type := List (String × List Entity)

/-- Reading a group's match list out of the result map; a missing key reads
as the empty list (Go's nil slice). -/
def resultsFor (m : Results) (n : String) : List Entity :=
  (lookupA m n).getD []

/-- `results[name] = append(results[name], e)`. -/
def resAppend (m : Results) (n : String) (e : Entity) : Results :=
  updA m n (fun v => v.getD [] ++ [e])

/-- The half-open slice `rs[a:b]` of the input (code-point indexed). -/
def slice (rs : List Char) (a b : Nat) : List Char :=
  (rs.drop a).take (b - a)

/-- The verification loop of `find` (`src/fastentity.go:158-164`): phrase and
candidate compared code point by code point through `unicode.ToLower`. -/
def ciMatch : List Char → List Char → Bool
  | [], _ => true
  | _ :: _, [] => false
  | e :: es, c :: cs => (toLower e = toLower c) && ciMatch es cs

/-- The bucket scan of `find` (`src/fastentity.go:154-168`): entities of the
bucket in order; a length mismatch stops the scan of this bucket (`break`);
a full case-insensitive match appends the input slice to the group's
results. -/
def scanBucket (rs : List Char) (gname : String) (p1 p2 : Nat × Nat) :
    List (List Char) → Results → Results
  | [], results => results
  | ent :: more, results =>
      if (ent.length : Int) ≠ (p2.2 : Int) - (p1.1 : Int) then results
      else
        scanBucket rs gname p1 p2 more
          (if ciMatch ent (slice rs p1.1 p2.2) then
            resAppend results gname ⟨slice rs p1.1 p2.2, p1.1⟩
          else results)

/-- The per-group body of `find`'s walk (`src/fastentity.go:148-170`): skip
the group if the candidate is longer than its longest phrase (`continue`),
otherwise look up the candidate's hash bucket and scan it. -/
def checkGroup (rs : List Char) (p1 p2 : Nat × Nat) (results : Results)
    (g : Group) : Results :=
  if (p2.2 : Int) - (p1.1 : Int) > (g.maxLen : Int) then results
  else
    match hash (slice rs p1.1 p2.2) with
    | none => results
    | some h =>
        match lookupA g.entities h with
        | none => results
        | some ents => scanBucket rs g.name p1 p2 ents results

/-- `for _, group := range groups { ... }` (`src/fastentity.go:148`). -/
def checkGroups (rs : List Char) (p1 p2 : Nat × Nat) (groups : List Group)
    (results : Results) : Results :=
  groups.foldl (checkGroup rs p1 p2) results

/-- The backward walk over the window (`src/fastentity.go:143-171`):
`p1` runs from the newest window entry (`p2` itself) to the oldest, stopping
(`break`) as soon as a candidate exceeds `MaxEntityLen`.  `walk` is the
window newest-first. -/
def runStack (rs : List Char) (groups : List Group) (p2 : Nat × Nat) :
    List (Nat × Nat) → Results → Results
  | [], results => results
  | p1 :: older, results =>
      if (p2.2 : Int) - (p1.1 : Int) > (MaxEntityLen : Int) then results
      else runStack rs groups p2 older (checkGroups rs p1 p2 groups results)

/-- The single pass of `find` (`src/fastentity.go:129-181`) over the
remaining input `l`; `off` is the index of `l`'s head in `rs`, `start` the
current word's start, `prevSpace` the previous character's class, `pairs`
the sliding window. -/
def findLoop (rs : List Char) (groups : List Group) :
    List Char → Nat → Nat → Bool → List (Nat × Nat) → Results → Results
  | [], _, _, _, _, results => results
  | r :: rest, off, start, prevSpace, pairs, results =>
      let space := isSep r
      if prevSpace && !space then
        findLoop rs groups rest (off + 1) off space pairs results
      else if space && !prevSpace then
        let pairs' := (shift (start, off) pairs).2
        let results' :=
          if 1 < pairs'.length then
            match pairs'.reverse with
            | [] => results
            | p2 :: olders => runStack rs groups p2 (p2 :: olders) results
          else results
        findLoop rs groups rest (off + 1) start space pairs' results'
      else
        findLoop rs groups rest (off + 1) start space pairs results

/-- Models `find` (`src/fastentity.go:122-183`). -/
def find (rs : List Char) (groups : List Group) : Results :=
  findLoop rs groups rs 0 0 true [] []

/-- Models `Group.Find` (`src/fastentity.go:114-119`). -/
def Group.find (g : Group) (rs : List Char) : List Entity :=
  resultsFor (Fastentity.find rs [g]) g.name

/-- Models `Store` (`src/fastentity.go:32-35`): groups by name. -/
abbrev Store : Type := List (String × Group)

/-- Models `New` (`src/fastentity.go:56-68`). -/
def Store.new (names : List String) : Store :=
  names.foldl (fun s n => updA s n (fun _ => ⟨n, [], 0⟩)) []

/-- One iteration of `Add`'s loop (`src/fastentity.go:84-90`): hash the
phrase (panicking on an empty phrase), append it to its bucket, and raise
`maxLen`. -/
def Group.addEntity (g : Group) (e : List Char) : Option Group :=
  match hash e with
  | none => none
  | some h =>
      some { g with
        entities := updA g.entities h (fun v => v.getD [] ++ [e]),
        maxLen := if e.length > g.maxLen then e.length else g.maxLen }

/-- The loop of `Add` over the supplied entities. -/
def Group.addMany (g : Group) : List (List Char) → Option Group
  | [] => some g
  | e :: es =>
      match g.addEntity e with
      | none => none
      | some g' => g'.addMany es

/-- Models `Store.Add` (`src/fastentity.go:71-92`): the group is created if
absent, then each entity is hashed and appended.  `none` models the panic
raised when a phrase is empty (`hash` indexes `rs[0]`). -/
def Store.add (s : Store) (name : String) (entities : List (List Char)) :
    Option Store :=
  let g := (lookupA s name).getD ⟨name, [], 0⟩
  match g.addMany entities with
  | none => none
  | some g' => some (updA s name (fun _ => g'))

/-- Models `Store.FindAll` (`src/fastentity.go:105-111`): per registered
group, the matches of `Group.Find`. -/
def Store.findAll (s : Store) (rs : List Char) : Results :=
  s.map (fun p => (p.1, p.2.find rs))

/-- Stores reachable through the public constructors: `New` followed by any
sequence of successful `Add` calls. -/
inductive Built : Store → Prop
  | new (names : List String) : Built (Store.new names)
  | add (s : Store) (name : String) (es : List (List Char)) (s' : Store) :
      Built s → Store.add s name es = some s' → Built s'

/-! ## The tokenizer, extracted

`find` interleaves tokenization with matching.  `tokLoop` is the word-span
state machine of `find`'s loop (`src/fastentity.go:129-181`) on its own: the
same branches, emitting the span closed at a non-separator-to-separator
transition instead of shifting it onto the window. -/

/-- The tokenizer state machine of `find`: same branch structure as
`findLoop`, recording each emitted `(start, end)` span. -/
def tokLoop : List Char → Nat → Nat → Bool → List (Nat × Nat)
  | [], _, _, _ => []
  | r :: rest, off, start, prevSpace =>
      let space := isSep r
      if prevSpace && !space then
        tokLoop rest (off + 1) off space
      else if space && !prevSpace then
        (start, off) :: tokLoop rest (off + 1) start space
      else
        tokLoop rest (off + 1) start space

/-- The spans `find` pushes onto its window, in order of emission. -/
def tokenize (rs : List Char) : List (Nat × Nat) :=
  tokLoop rs 0 0 true

/-- Processing a list of already-tokenized spans exactly as `find` does:
shift each onto the window and, when more than one span is held, run the
backward walk.  (`findLoop` is proved equal to `procSpans` over `tokLoop`'s
spans below.) -/
def procSpans (rs : List Char) (groups : List Group) :
    List (Nat × Nat) → List (Nat × Nat) → Results → Results
  | [], _, results => results
  | sp :: more, pairs, results =>
      let pairs' := (shift sp pairs).2
      let results' :=
        if 1 < pairs'.length then
          match pairs'.reverse with
          | [] => results
          | p2 :: olders => runStack rs groups p2 (p2 :: olders) results
        else results
      procSpans rs groups more pairs' results'

/-- The window contents after pushing a list of spans through `shift`. -/
def windowAfter (spans : List (Nat × Nat)) : List (Nat × Nat) :=
  spans.foldl (fun w sp => (shift sp w).2) []

/-! ## Specification-side word runs

`specRuns` is modelled from the spec's words (§4.1): the ordered list of
`(start, end)` half-open spans of maximal runs of non-separator characters.
`specClosedRuns` keeps only the runs that are closed by an actual separator
character, dropping a trailing run that reaches the end of the input. -/

/-- `true` on word characters. -/
def notSep (c : Char) : Bool := !(isSep c)

theorem length_dropWhile_le {α : Type} (p : α → Bool) (l : List α) :
    (l.dropWhile p).length ≤ l.length := by
  induction l with
  | nil => simp [List.dropWhile]
  | cons a l ih =>
      by_cases h : p a
      · rw [List.dropWhile_cons_of_pos h]; exact Nat.le_succ_of_le ih
      · rw [List.dropWhile_cons_of_neg h]

/-- All maximal runs of non-separator characters in `l`, as spans offset by
`off`, in order of occurrence (modelled from the spec's words, §4.1: the
ordered list of half-open spans of maximal runs of non-separator
characters).  Structured on a fuel argument for structural recursion;
`specRuns` instantiates the fuel with the input length, which suffices. -/
def specRunsF : Nat → Nat → List Char → List (Nat × Nat)
  | 0, _, _ => []
  | _ + 1, _, [] => []
  | fuel + 1, off, c :: rest =>
      if isSep c then specRunsF fuel (off + 1) rest
      else
        (off, off + ((c :: rest).takeWhile notSep).length) ::
          specRunsF fuel (off + ((c :: rest).takeWhile notSep).length)
            ((c :: rest).dropWhile notSep)

/-- The ordered maximal runs of non-separator characters of `l` (spec §4.1). -/
def specRuns (off : Nat) (l : List Char) : List (Nat × Nat) :=
  specRunsF l.length off l

/-- Like `specRunsF`, but keeping only the runs closed by an actual
separator character: a trailing run that reaches the end of the input is
dropped. -/
def specClosedRunsF : Nat → Nat → List Char → List (Nat × Nat)
  | 0, _, _ => []
  | _ + 1, _, [] => []
  | fuel + 1, off, c :: rest =>
      if isSep c then specClosedRunsF fuel (off + 1) rest
      else if ((c :: rest).dropWhile notSep).length = 0 then []
      else
        (off, off + ((c :: rest).takeWhile notSep).length) ::
          specClosedRunsF fuel (off + ((c :: rest).takeWhile notSep).length)
            ((c :: rest).dropWhile notSep)

/-- The maximal runs of `l` that are closed by a separator character. -/
def specClosedRuns (off : Nat) (l : List Char) : List (Nat × Nat) :=
  specClosedRunsF l.length off l

/-! ## Unfolding lemmas for the spec-side runs -/

theorem specRunsF_congr :
    ∀ (f1 f2 off : Nat) (l : List Char), l.length ≤ f1 → l.length ≤ f2 →
      specRunsF f1 off l = specRunsF f2 off l := by
  intro f1
  induction f1 with
  | zero =>
      intro f2 off l hl _
      have hnil : l = [] := List.eq_nil_of_length_eq_zero (Nat.le_zero.mp hl)
      subst hnil
      cases f2 <;> rfl
  | succ f1 ih =>
      intro f2 off l hl hl2
      cases l with
      | nil => cases f2 <;> rfl
      | cons c rest =>
          obtain ⟨f2', rfl⟩ : ∃ f2', f2 = f2' + 1 := by
            cases f2 with
            | zero => simp at hl2
            | succ m => exact ⟨m, rfl⟩
          have hc : rest.length ≤ f1 := by simpa using hl
          have hc2 : rest.length ≤ f2' := by simpa using hl2
          by_cases h : isSep c = true
          · simp only [specRunsF]
            rw [if_pos h, if_pos h]
            exact ih f2' (off + 1) rest hc hc2
          · have hw : notSep c = true := by simp [notSep]; simpa using h
            have hd : ((c :: rest).dropWhile notSep).length ≤ rest.length := by
              rw [List.dropWhile_cons_of_pos hw]
              exact length_dropWhile_le _ _
            simp only [specRunsF]
            rw [if_neg h, if_neg h]
            rw [ih f2' _ _ (le_trans hd hc) (le_trans hd hc2)]

theorem specClosedRunsF_congr :
    ∀ (f1 f2 off : Nat) (l : List Char), l.length ≤ f1 → l.length ≤ f2 →
      specClosedRunsF f1 off l = specClosedRunsF f2 off l := by
  intro f1
  induction f1 with
  | zero =>
      intro f2 off l hl _
      have hnil : l = [] := List.eq_nil_of_length_eq_zero (Nat.le_zero.mp hl)
      subst hnil
      cases f2 <;> rfl
  | succ f1 ih =>
      intro f2 off l hl hl2
      cases l with
      | nil => cases f2 <;> rfl
      | cons c rest =>
          obtain ⟨f2', rfl⟩ : ∃ f2', f2 = f2' + 1 := by
            cases f2 with
            | zero => simp at hl2
            | succ m => exact ⟨m, rfl⟩
          have hc : rest.length ≤ f1 := by simpa using hl
          have hc2 : rest.length ≤ f2' := by simpa using hl2
          by_cases h : isSep c = true
          · simp only [specClosedRunsF]
            rw [if_pos h, if_pos h]
            exact ih f2' (off + 1) rest hc hc2
          · have hw : notSep c = true := by simp [notSep]; simpa using h
            have hd : ((c :: rest).dropWhile notSep).length ≤ rest.length := by
              rw [List.dropWhile_cons_of_pos hw]
              exact length_dropWhile_le _ _
            simp only [specClosedRunsF]
            rw [if_neg h, if_neg h]
            by_cases hz : ((c :: rest).dropWhile notSep).length = 0
            · rw [if_pos hz, if_pos hz]
            · rw [if_neg hz, if_neg hz]
              rw [ih f2' _ _ (le_trans hd hc) (le_trans hd hc2)]

theorem specRuns_nil (off : Nat) : specRuns off [] = [] := rfl

theorem specRuns_sep {c : Char} (off : Nat) (rest : List Char)
    (h : isSep c = true) :
    specRuns off (c :: rest) = specRuns (off + 1) rest := by
  simp only [specRuns, List.length_cons, specRunsF]
  rw [if_pos h]

theorem specRuns_word {c : Char} (off : Nat) (rest : List Char)
    (h : isSep c = false) :
    specRuns off (c :: rest) =
      (off, off + 1 + (rest.takeWhile notSep).length) ::
        specRuns (off + 1 + (rest.takeWhile notSep).length)
          (rest.dropWhile notSep) := by
  have h' : ¬ isSep c = true := by simp [h]
  have hw : notSep c = true := by simp [notSep, h]
  have hd : (rest.dropWhile notSep).length ≤ rest.length := length_dropWhile_le _ _
  simp only [specRuns, List.length_cons, specRunsF]
  rw [if_neg h', List.takeWhile_cons_of_pos hw, List.dropWhile_cons_of_pos hw]
  simp only [List.length_cons]
  rw [specRunsF_congr rest.length (rest.dropWhile notSep).length _ _ hd le_rfl]
  have harith : off + ((rest.takeWhile notSep).length + 1) =
      off + 1 + (rest.takeWhile notSep).length := by omega
  rw [harith]

theorem specClosedRuns_nil (off : Nat) : specClosedRuns off [] = [] := rfl

theorem specClosedRuns_sep {c : Char} (off : Nat) (rest : List Char)
    (h : isSep c = true) :
    specClosedRuns off (c :: rest) = specClosedRuns (off + 1) rest := by
  simp only [specClosedRuns, List.length_cons, specClosedRunsF]
  rw [if_pos h]

theorem specClosedRuns_word {c : Char} (off : Nat) (rest : List Char)
    (h : isSep c = false) :
    specClosedRuns off (c :: rest) =
      if (rest.dropWhile notSep).length = 0 then []
      else
        (off, off + 1 + (rest.takeWhile notSep).length) ::
          specClosedRuns (off + 1 + (rest.takeWhile notSep).length)
            (rest.dropWhile notSep) := by
  have h' : ¬ isSep c = true := by simp [h]
  have hw : notSep c = true := by simp [notSep, h]
  have hd : (rest.dropWhile notSep).length ≤ rest.length := length_dropWhile_le _ _
  simp only [specClosedRuns, List.length_cons, specClosedRunsF]
  rw [if_neg h', List.takeWhile_cons_of_pos hw, List.dropWhile_cons_of_pos hw]
  simp only [List.length_cons]
  by_cases hz : (rest.dropWhile notSep).length = 0
  · rw [if_pos hz, if_pos hz]
  · rw [if_neg hz, if_neg hz]
    rw [specClosedRunsF_congr rest.length (rest.dropWhile notSep).length _ _ hd le_rfl]
    have harith : off + ((rest.takeWhile notSep).length + 1) =
        off + 1 + (rest.takeWhile notSep).length := by omega
    rw [harith]

/-! ## The tokenizer emits exactly the separator-closed maximal runs -/

theorem tokLoop_spec (l : List Char) :
    (∀ off start, tokLoop l off start true = specClosedRuns off l) ∧
    (∀ off start, tokLoop l off start false =
      if (l.dropWhile notSep).length = 0 then []
      else
        (start, off + (l.takeWhile notSep).length) ::
          specClosedRuns (off + (l.takeWhile notSep).length)
            (l.dropWhile notSep)) := by
  induction l with
  | nil =>
      refine ⟨fun off start => rfl, fun off start => ?_⟩
      simp [tokLoop, List.dropWhile]
  | cons c rest ih =>
      constructor
      · intro off start
        by_cases h : isSep c = true
        · rw [specClosedRuns_sep off rest h]
          simpa [tokLoop, h] using ih.1 (off + 1) start
        · have h' : isSep c = false := by simpa using h
          rw [specClosedRuns_word off rest h']
          have h2 := ih.2 (off + 1) off
          simp only [tokLoop, h', Bool.not_false, Bool.and_self, if_true]
          rw [h2]
      · intro off start
        by_cases h : isSep c = true
        · have hc : notSep c = false := by simp [notSep, h]
          rw [List.dropWhile_cons_of_neg (by simp [hc]),
            List.takeWhile_cons_of_neg (by simp [hc])]
          rw [if_neg (by simp)]
          simp only [List.takeWhile_nil, List.length_nil, Nat.add_zero]
          rw [specClosedRuns_sep off rest h]
          have h1 := ih.1 (off + 1) start
          simp only [tokLoop, h, Bool.false_and, Bool.not_false, Bool.and_true]
          simp [h1]
        · have h' : isSep c = false := by simpa using h
          have hc : notSep c = true := by simp [notSep, h']
          rw [List.dropWhile_cons_of_pos (by simp [hc]),
            List.takeWhile_cons_of_pos (by simp [hc])]
          simp only [List.length_cons]
          have harith : off + ((rest.takeWhile notSep).length + 1) =
              off + 1 + (rest.takeWhile notSep).length := by omega
          rw [harith]
          have h2 := ih.2 (off + 1) start
          simp only [tokLoop, h', Bool.and_false, Bool.false_and, Bool.not_false]
          rw [if_neg (by simp), if_neg (by simp)]
          rw [h2]

/-- The spans `find` pushes are exactly the separator-closed maximal runs. -/
theorem tokenize_eq_specClosedRuns (rs : List Char) :
    tokenize rs = specClosedRuns 0 rs :=
  (tokLoop_spec rs).1 0 0

/-! ## The hash key determines the phrase length -/

theorem digitChar_inj {d e : Nat} (hd : d < 10) (he : e < 10)
    (h : digitChar d = digitChar e) : d = e := by
  interval_cases d <;> interval_cases e <;> simp_all [digitChar]

/-- The digits list recomputes its number. -/
theorem digitsRev_val : ∀ n : Nat,
    (digitsRev n).foldr (fun d acc => d + 10 * acc) 0 = n := by
  intro n
  induction n using Nat.strong_induction_on with
  | _ n ih =>
      rw [digitsRev]
      by_cases h : n = 0
      · simp [h]
      · rw [dif_neg h]
        simp only [List.foldr_cons]
        rw [ih (n / 10) (Nat.div_lt_self (Nat.pos_of_ne_zero h) (by omega))]
        omega

theorem digitsRev_lt_ten : ∀ n : Nat, ∀ d ∈ digitsRev n, d < 10 := by
  intro n
  induction n using Nat.strong_induction_on with
  | _ n ih =>
      intro d hd
      rw [digitsRev] at hd
      by_cases h : n = 0
      · simp [h] at hd
      · rw [dif_neg h] at hd
        rcases List.mem_cons.mp hd with h1 | h1
        · omega
        · exact ih (n / 10) (Nat.div_lt_self (Nat.pos_of_ne_zero h) (by omega)) d h1

theorem map_digitChar_inj : ∀ (a b : List Nat), (∀ d ∈ a, d < 10) →
    (∀ d ∈ b, d < 10) → a.map digitChar = b.map digitChar → a = b := by
  intro a
  induction a with
  | nil => intro b _ _ h; cases b <;> simp_all
  | cons d a ih =>
      intro b ha hb h
      cases b with
      | nil => simp at h
      | cons e b =>
          simp only [List.map_cons, List.cons.injEq] at h
          have hde := digitChar_inj (ha d (by simp)) (hb e (by simp)) h.1
          have := ih b (fun x hx => ha x (by simp [hx])) (fun x hx => hb x (by simp [hx])) h.2
          simp [hde, this]

theorem digitsRev_inj {n m : Nat} (h : digitsRev n = digitsRev m) : n = m := by
  have hn := digitsRev_val n
  have hm := digitsRev_val m
  rw [h] at hn
  omega

theorem decimal_inj {n m : Nat} (hn : n ≠ 0) (hm : m ≠ 0)
    (h : decimal n = decimal m) : n = m := by
  unfold decimal at h
  rw [if_neg hn, if_neg hm] at h
  have := map_digitChar_inj (digitsRev n).reverse (digitsRev m).reverse
    (fun d hd => digitsRev_lt_ten n d (List.mem_reverse.mp hd))
    (fun d hd => digitsRev_lt_ten m d (List.mem_reverse.mp hd)) h
  exact digitsRev_inj (List.reverse_injective this)

theorem digitsRev_length_ge : ∀ (k n : Nat), 10 ^ k ≤ n →
    k + 1 ≤ (digitsRev n).length := by
  intro k
  induction k with
  | zero =>
      intro n hn
      rw [digitsRev, dif_neg (by omega)]
      simp
  | succ k ih =>
      intro n hn
      have hn0 : n ≠ 0 := by
        have : (0:Nat) < 10 ^ (k+1) := Nat.pos_pow_of_pos _ (by omega)
        omega
      rw [digitsRev, dif_neg hn0]
      have : 10 ^ k ≤ n / 10 := by
        rw [Nat.le_div_iff_mul_le (by omega)]
        calc 10 ^ k * 10 = 10 ^ (k + 1) := by ring
          _ ≤ n := hn
      simpa using ih (n / 10) this

theorem pad3_length_of_lt {n : Nat} (h : n < 1000) : (pad3 n).length = 3 := by
  simp [pad3, h]

theorem pad3_length_of_ge {n : Nat} (h : 1000 ≤ n) : 4 ≤ (pad3 n).length := by
  rw [pad3, if_neg (by omega)]
  unfold decimal
  rw [if_neg (by omega)]
  simpa using digitsRev_length_ge 3 n (by simpa using h)

theorem pad3_length_ge (n : Nat) : 3 ≤ (pad3 n).length := by
  by_cases h : n < 1000
  · rw [pad3_length_of_lt h]
  · have := pad3_length_of_ge (by omega : 1000 ≤ n)
    omega

theorem pad3_inj {a b : Nat} (h : pad3 a = pad3 b) : a = b := by
  by_cases ha : a < 1000 <;> by_cases hb : b < 1000
  · rw [pad3, if_pos ha, pad3, if_pos hb] at h
    simp only [List.cons.injEq, and_true] at h
    obtain ⟨h1, h2, h3⟩ := h
    have e1 := digitChar_inj (by omega) (by omega) h1
    have e2 := digitChar_inj (by omega) (by omega) h2
    have e3 := digitChar_inj (by omega) (by omega) h3
    omega
  · exfalso
    have := congrArg List.length h
    rw [pad3_length_of_lt ha] at this
    have := pad3_length_of_ge (by omega : 1000 ≤ b)
    omega
  · exfalso
    have := congrArg List.length h
    rw [pad3_length_of_lt hb] at this
    have := pad3_length_of_ge (by omega : 1000 ≤ a)
    omega
  · rw [pad3, if_neg ha, pad3, if_neg hb] at h
    exact decimal_inj (by omega) (by omega) h

/-- Two phrases stored under the same hash key have the same length: the key
ends in the `%03d`-rendered length, and the prefix before it has a length
determined by the key's total length. -/
theorem hash_eq_length {a b : List Char} {k : List Char}
    (ha : hash a = some k) (hb : hash b = some k) : a.length = b.length := by
  have hlen : ∀ c : List Char, hash c = some k →
      k.length = min 3 c.length + (pad3 c.length).length ∧
      k.drop (min 3 c.length) = pad3 c.length := by
    intro c hc
    match c, hc with
    | r0 :: r1 :: r2 :: t, hc =>
        simp only [hash, Option.some.injEq] at hc
        subst hc
        refine ⟨by simp <;> omega, ?_⟩
        have hm : min 3 (r0 :: r1 :: r2 :: t).length = 3 := by
          simp [Nat.min_eq_left]
        rw [hm]
        rfl
    | [r0, r1], hc =>
        simp only [hash, Option.some.injEq] at hc
        subst hc
        exact ⟨by simp <;> omega, rfl⟩
    | [r0], hc =>
        simp only [hash, Option.some.injEq] at hc
        subst hc
        exact ⟨by simp <;> omega, rfl⟩
  obtain ⟨hal, had⟩ := hlen a ha
  obtain ⟨hbl, hbd⟩ := hlen b hb
  have hmin : min 3 a.length = min 3 b.length := by
    have h3a := pad3_length_ge a.length
    have h3b := pad3_length_ge b.length
    by_cases haa : 3 ≤ a.length <;> by_cases hbb : 3 ≤ b.length
    · rw [Nat.min_eq_left haa, Nat.min_eq_left hbb]
    · -- a.length ≥ 3, b.length < 3: pad3 b.length has length 3 exactly
      rw [pad3_length_of_lt (by omega)] at hbl
      rw [Nat.min_eq_left haa] at hal
      rw [Nat.min_eq_right (by omega)] at hbl
      omega
    · rw [pad3_length_of_lt (by omega)] at hal
      rw [Nat.min_eq_left hbb] at hbl
      rw [Nat.min_eq_right (by omega)] at hal
      omega
    · rw [Nat.min_eq_right (by omega), Nat.min_eq_right (by omega)]
      rw [pad3_length_of_lt (by omega)] at hal hbl
      rw [Nat.min_eq_right (by omega)] at hal
      rw [Nat.min_eq_right (by omega)] at hbl
      omega
  rw [hmin] at had
  rw [had] at hbd
  exact pad3_inj hbd

/-! ## Case-insensitive comparison and hash congruence -/

theorem ciMatch_of_map_eq : ∀ {a b : List Char},
    a.map toLower = b.map toLower → ciMatch a b = true := by
  intro a
  induction a with
  | nil => intro b _; rfl
  | cons x xs ih =>
      intro b h
      cases b with
      | nil => simp at h
      | cons y ys =>
          simp only [List.map_cons, List.cons.injEq] at h
          simp [ciMatch, h.1, ih h.2]

theorem ciMatch_iff_map_eq : ∀ {a b : List Char}, a.length = b.length →
    (ciMatch a b = true ↔ a.map toLower = b.map toLower) := by
  intro a
  induction a with
  | nil =>
      intro b h
      cases b with
      | nil => simp [ciMatch]
      | cons y ys => simp at h
  | cons x xs ih =>
      intro b h
      cases b with
      | nil => simp at h
      | cons y ys =>
          simp only [List.length_cons] at h
          have hxy : xs.length = ys.length := by omega
          simp only [ciMatch, Bool.and_eq_true, decide_eq_true_eq, List.map_cons,
            List.cons.injEq]
          rw [ih hxy]

theorem hash_congr {a b : List Char} (h : a.map toLower = b.map toLower) :
    hash a = hash b := by
  have hl : a.length = b.length := by
    have := congrArg List.length h
    simpa using this
  match a, b, h, hl with
  | [], [], _, _ => rfl
  | [x0], [y0], h, _ =>
      simp only [List.map_cons, List.map_nil, List.cons.injEq] at h
      simp [hash, h.1]
  | [x0, x1], [y0, y1], h, _ =>
      simp only [List.map_cons, List.map_nil, List.cons.injEq] at h
      simp [hash, h.1, h.2.1]
  | x0 :: x1 :: x2 :: xt, y0 :: y1 :: y2 :: yt, h, hl =>
      simp only [List.map_cons, List.cons.injEq] at h
      simp only [hash, h.1, h.2.1, h.2.2.1, Option.some.injEq]
      simp only [List.length_cons] at hl ⊢
      rw [show xt.length = yt.length by omega]

theorem hash_ne_nil {a k : List Char} (h : hash a = some k) : a ≠ [] := by
  intro hnil
  subst hnil
  simp [hash] at h

theorem hash_pos {a k : List Char} (h : hash a = some k) : 1 ≤ a.length := by
  have := hash_ne_nil h
  cases a with
  | nil => simp at this
  | cons x xs => simp

/-! ## Association-list lemmas -/

theorem lookupA_cons_self {α β : Type} [DecidableEq α]
    (k : α) (v : β) (rest : List (α × β)) :
    lookupA ((k, v) :: rest) k = some v := by
  simp [lookupA]

theorem lookupA_cons_ne {α β : Type} [DecidableEq α]
    (k0 k : α) (v : β) (rest : List (α × β)) (h : k0 ≠ k) :
    lookupA ((k0, v) :: rest) k = lookupA rest k := by
  simp [lookupA, h]

theorem updA_cons_self {α β : Type} [DecidableEq α]
    (k : α) (v : β) (rest : List (α × β)) (f : Option β → β) :
    updA ((k, v) :: rest) k f = (k, f (some v)) :: rest := by
  simp [updA]

theorem updA_cons_ne {α β : Type} [DecidableEq α]
    (k0 k : α) (v : β) (rest : List (α × β)) (f : Option β → β) (h : k0 ≠ k) :
    updA ((k0, v) :: rest) k f = (k0, v) :: updA rest k f := by
  simp [updA, h]

theorem lookupA_updA_self {α β : Type} [DecidableEq α]
    (m : List (α × β)) (k : α) (f : Option β → β) :
    lookupA (updA m k f) k = some (f (lookupA m k)) := by
  induction m with
  | nil => simp [updA, lookupA]
  | cons p rest ih =>
      obtain ⟨k', v⟩ := p
      by_cases h : k' = k
      · subst h
        rw [updA_cons_self, lookupA_cons_self, lookupA_cons_self]
      · rw [updA_cons_ne _ _ _ _ _ h, lookupA_cons_ne _ _ _ _ h,
          lookupA_cons_ne _ _ _ _ h, ih]

theorem lookupA_updA_other {α β : Type} [DecidableEq α]
    (m : List (α × β)) (k k' : α) (f : Option β → β) (h : k ≠ k') :
    lookupA (updA m k f) k' = lookupA m k' := by
  induction m with
  | nil => simp [updA, lookupA, h]
  | cons p rest ih =>
      obtain ⟨k0, v⟩ := p
      by_cases h0 : k0 = k
      · subst h0
        rw [updA_cons_self, lookupA_cons_ne _ _ _ _ h, lookupA_cons_ne _ _ _ _ h]
      · rw [updA_cons_ne _ _ _ _ _ h0]
        by_cases h1 : k0 = k'
        · subst h1
          rw [lookupA_cons_self, lookupA_cons_self]
        · rw [lookupA_cons_ne _ _ _ _ h1, lookupA_cons_ne _ _ _ _ h1, ih]

theorem mem_updA {α β : Type} [DecidableEq α]
    (m : List (α × β)) (k : α) (f : Option β → β) (p : α × β)
    (hp : p ∈ updA m k f) : p ∈ m ∨ p.1 = k := by
  induction m with
  | nil => simp [updA] at hp; simp [hp]
  | cons q rest ih =>
      obtain ⟨k0, v⟩ := q
      by_cases h0 : k0 = k
      · subst h0
        rw [updA_cons_self] at hp
        rcases List.mem_cons.mp hp with h | h
        · right; rw [h]
        · left; exact List.mem_cons_of_mem _ h
      · rw [updA_cons_ne _ _ _ _ _ h0] at hp
        rcases List.mem_cons.mp hp with h | h
        · left; rw [h]; exact List.mem_cons_self _ _
        · rcases ih h with h' | h'
          · left; exact List.mem_cons_of_mem _ h'
          · right; exact h'

theorem lookupA_of_mem {α β : Type} [DecidableEq α]
    (m : List (α × β)) (k : α) (v : β)
    (hnd : (m.map Prod.fst).Nodup) (hm : (k, v) ∈ m) :
    lookupA m k = some v := by
  induction m with
  | nil => simp at hm
  | cons p rest ih =>
      obtain ⟨k0, v0⟩ := p
      simp only [List.map_cons, List.nodup_cons] at hnd
      rcases List.mem_cons.mp hm with h | h
      · injection h with h1 h2
        subst h1
        subst h2
        exact lookupA_cons_self _ _ _
      · have hne : k0 ≠ k := by
          intro he
          subst he
          exact hnd.1 (List.mem_map.mpr ⟨(k0, v), h, rfl⟩)
        rw [lookupA_cons_ne _ _ _ _ hne]
        exact ih hnd.2 h

theorem mem_of_lookupA {α β : Type} [DecidableEq α]
    (m : List (α × β)) (k : α) (v : β) (h : lookupA m k = some v) :
    (k, v) ∈ m := by
  induction m with
  | nil => simp [lookupA] at h
  | cons p rest ih =>
      obtain ⟨k0, v0⟩ := p
      by_cases h0 : k0 = k
      · subst h0
        rw [lookupA_cons_self] at h
        injection h with h1
        subst h1
        exact List.mem_cons_self _ _
      · rw [lookupA_cons_ne _ _ _ _ h0] at h
        exact List.mem_cons_of_mem _ (ih h)

theorem updA_keys_nodup {α β : Type} [DecidableEq α]
    (m : List (α × β)) (k : α) (f : Option β → β)
    (hnd : (m.map Prod.fst).Nodup) : ((updA m k f).map Prod.fst).Nodup := by
  induction m with
  | nil => simp [updA]
  | cons p rest ih =>
      obtain ⟨k0, v0⟩ := p
      simp only [List.map_cons, List.nodup_cons] at hnd
      by_cases h0 : k0 = k
      · subst h0
        rw [updA_cons_self]
        simp only [List.map_cons, List.nodup_cons]
        exact ⟨hnd.1, hnd.2⟩
      · rw [updA_cons_ne _ _ _ _ _ h0]
        simp only [List.map_cons, List.nodup_cons]
        refine ⟨?_, ih hnd.2⟩
        intro hmem
        rcases List.mem_map.mp hmem with ⟨q, hq, hq1⟩
        rcases mem_updA rest k f q hq with h' | h'
        · exact hnd.1 (List.mem_map.mpr ⟨q, h', hq1⟩)
        · exact h0 (by rw [← hq1, h'])

/-! ## Invariants of stores built through the public constructors -/

/-- All phrases registered in a group, across its buckets. -/
def allPhrases (g : Group) : List (List Char) :=
  (g.entities.map Prod.snd).flatten

/-- The greatest code-point length among a group's registered phrases. -/
def maxPhraseLen (g : Group) : Nat :=
  (allPhrases g).foldr (fun e m => max e.length m) 0

theorem length_le_maxPhraseLen {g : Group} {e : List Char}
    (h : e ∈ allPhrases g) : e.length ≤ maxPhraseLen g := by
  unfold maxPhraseLen
  suffices hL : ∀ L : List (List Char), e ∈ L →
      e.length ≤ L.foldr (fun e m => max e.length m) 0 from hL _ h
  intro L hL
  induction L with
  | nil => simp at hL
  | cons x xs ih =>
      rcases List.mem_cons.mp hL with h1 | h1
      · subst h1; simp
      · simp only [List.foldr_cons]
        exact le_trans (ih h1) (by omega)

theorem mem_allPhrases {g : Group} {k : List Char} {b : List (List Char)}
    {e : List Char} (hb : (k, b) ∈ g.entities) (he : e ∈ b) :
    e ∈ allPhrases g := by
  unfold allPhrases
  rw [List.mem_flatten]
  exact ⟨b, List.mem_map.mpr ⟨(k, b), hb, rfl⟩, he⟩

/-- Well-formedness of a group as established by `Add`: buckets are keyed by
their phrases' hash, the bucket keys are distinct, the stored name matches,
and `maxLen` dominates every phrase length. -/
structure GroupWF (g : Group) : Prop where
  buckets : ∀ kb ∈ g.entities, ∀ e ∈ kb.2, hash e = some kb.1
  keysNodup : (g.entities.map Prod.fst).Nodup
  maxLen : ∀ kb ∈ g.entities, ∀ e ∈ kb.2, e.length ≤ g.maxLen

/-- Well-formedness of a store: entries carry their own name and
well-formed groups, with distinct names. -/
structure StoreWF (s : Store) : Prop where
  names : ∀ p ∈ s, (p : String × Group).2.name = p.1
  groups : ∀ p ∈ s, GroupWF (p : String × Group).2
  keysNodup : (s.map Prod.fst).Nodup

theorem groupWF_empty (n : String) : GroupWF ⟨n, [], 0⟩ := by
  constructor <;> simp

theorem groupWF_addEntity {g g' : Group} {e : List Char}
    (hwf : GroupWF g) (h : g.addEntity e = some g') : GroupWF g' := by
  unfold Group.addEntity at h
  rcases hh : hash e with _ | k
  · rw [hh] at h; simp at h
  · rw [hh] at h
    simp only [Option.some.injEq] at h
    subst h
    refine ⟨?_, ?_, ?_⟩
    · intro kb hkb e' he'
      rcases mem_updA _ _ _ _ hkb with hm | hk
      · exact hwf.buckets kb hm e' he'
      · -- kb is the updated bucket for key k
        obtain ⟨kk, bb⟩ := kb
        simp only at hk
        subst hk
        have hlk : lookupA (updA g.entities kk
            (fun v => v.getD [] ++ [e])) kk =
            some ((lookupA g.entities kk).getD [] ++ [e]) :=
          lookupA_updA_self _ _ _
        have hbb : bb = (lookupA g.entities kk).getD [] ++ [e] := by
          have h2 := lookupA_of_mem _ _ _ (updA_keys_nodup _ _ _ hwf.keysNodup) hkb
          rw [hlk] at h2
          injection h2 with h2
          exact h2.symm
        subst hbb
        rcases List.mem_append.mp he' with hm | hm
        · rcases ho : lookupA g.entities kk with _ | b0
          · rw [ho] at hm; simp at hm
          · rw [ho] at hm
            simp only [Option.getD_some] at hm
            exact hwf.buckets (kk, b0) (mem_of_lookupA _ _ _ ho) e' hm
        · have : e' = e := by simpa using hm
          subst this
          exact hh
    · exact updA_keys_nodup _ _ _ hwf.keysNodup
    · intro kb hkb e' he'
      have hup : g.maxLen ≤ (if e.length > g.maxLen then e.length else g.maxLen) := by
        split <;> omega
      rcases mem_updA _ _ _ _ hkb with hm | hk
      · exact le_trans (hwf.maxLen kb hm e' he') hup
      · obtain ⟨kk, bb⟩ := kb
        simp only at hk
        subst hk
        have hbb : bb = (lookupA g.entities kk).getD [] ++ [e] := by
          have h2 := lookupA_of_mem _ _ _ (updA_keys_nodup _ _ _ hwf.keysNodup) hkb
          rw [lookupA_updA_self _ _ _] at h2
          injection h2 with h2
          exact h2.symm
        subst hbb
        rcases List.mem_append.mp he' with hm | hm
        · rcases ho : lookupA g.entities kk with _ | b0
          · rw [ho] at hm; simp at hm
          · rw [ho] at hm
            simp only [Option.getD_some] at hm
            exact le_trans (hwf.maxLen (kk, b0) (mem_of_lookupA _ _ _ ho) e' hm) hup
        · have : e' = e := by simpa using hm
          subst this
          dsimp only
          split <;> omega

theorem groupWF_addMany : ∀ {es : List (List Char)} {g g' : Group},
    GroupWF g → Group.addMany g es = some g' → GroupWF g' := by
  intro es
  induction es with
  | nil =>
      intro g g' hwf h
      simp only [Group.addMany, Option.some.injEq] at h
      subst h
      exact hwf
  | cons e es ih =>
      intro g g' hwf h
      simp only [Group.addMany] at h
      rcases ha : g.addEntity e with _ | g1
      · rw [ha] at h; simp at h
      · rw [ha] at h
        exact ih (groupWF_addEntity hwf ha) h

theorem addEntity_name {g g' : Group} {e : List Char}
    (h : g.addEntity e = some g') : g'.name = g.name := by
  unfold Group.addEntity at h
  rcases hh : hash e with _ | k <;> rw [hh] at h
  · simp at h
  · simp only [Option.some.injEq] at h
    subst h
    rfl

theorem addMany_name : ∀ {es : List (List Char)} {g g' : Group},
    Group.addMany g es = some g' → g'.name = g.name := by
  intro es
  induction es with
  | nil =>
      intro g g' h
      simp only [Group.addMany, Option.some.injEq] at h
      subst h; rfl
  | cons e es ih =>
      intro g g' h
      simp only [Group.addMany] at h
      rcases ha : g.addEntity e with _ | g1
      · rw [ha] at h; simp at h
      · rw [ha] at h
        rw [ih h, addEntity_name ha]

theorem storeWF_new (names : List String) : StoreWF (Store.new names) := by
  unfold Store.new
  suffices h : ∀ (acc : List String) (s : Store), StoreWF s →
      StoreWF (acc.foldl (fun s n => updA s n (fun _ => ⟨n, [], 0⟩)) s) by
    exact h names [] ⟨by simp, by simp, by simp⟩
  intro acc
  induction acc with
  | nil => intro s h; exact h
  | cons n ns ih =>
      intro s h
      simp only [List.foldl_cons]
      refine ih _ ⟨?_, ?_, updA_keys_nodup _ _ _ h.keysNodup⟩
      · intro p hp
        rcases mem_updA _ _ _ _ hp with hm | hk
        · exact h.names p hm
        · obtain ⟨pn, pg⟩ := p
          simp only at hk
          subst hk
          have h2 := lookupA_of_mem _ _ _ (updA_keys_nodup _ _ _ h.keysNodup) hp
          rw [lookupA_updA_self _ _ _] at h2
          injection h2 with h2
          rw [← h2]
      · intro p hp
        rcases mem_updA _ _ _ _ hp with hm | hk
        · exact h.groups p hm
        · obtain ⟨pn, pg⟩ := p
          simp only at hk
          subst hk
          have h2 := lookupA_of_mem _ _ _ (updA_keys_nodup _ _ _ h.keysNodup) hp
          rw [lookupA_updA_self _ _ _] at h2
          injection h2 with h2
          rw [← h2]
          exact groupWF_empty _

theorem storeWF_add {s : Store} {name : String} {es : List (List Char)}
    {s' : Store} (hwf : StoreWF s) (h : Store.add s name es = some s') :
    StoreWF s' := by
  unfold Store.add at h
  dsimp only at h
  rcases ha : Group.addMany ((lookupA s name).getD ⟨name, [], 0⟩) es with _ | g'
  · rw [ha] at h; simp at h
  · rw [ha] at h
    simp only [Option.some.injEq] at h
    subst h
    have hgname : g'.name = name := by
      rw [addMany_name ha]
      rcases ho : lookupA s name with _ | g0
      · rfl
      · simp only [Option.getD_some]
        exact hwf.names (name, g0) (mem_of_lookupA _ _ _ ho)
    have hgwf : GroupWF g' := by
      refine groupWF_addMany ?_ ha
      rcases ho : lookupA s name with _ | g0
      · exact groupWF_empty _
      · simp only [Option.getD_some]
        exact hwf.groups (name, g0) (mem_of_lookupA _ _ _ ho)
    refine ⟨?_, ?_, updA_keys_nodup _ _ _ hwf.keysNodup⟩
    · intro p hp
      rcases mem_updA _ _ _ _ hp with hm | hk
      · exact hwf.names p hm
      · obtain ⟨pn, pg⟩ := p
        simp only at hk
        subst hk
        have h2 := lookupA_of_mem _ _ _ (updA_keys_nodup _ _ _ hwf.keysNodup) hp
        rw [lookupA_updA_self _ _ _] at h2
        injection h2 with h2
        rw [← h2, hgname]
    · intro p hp
      rcases mem_updA _ _ _ _ hp with hm | hk
      · exact hwf.groups p hm
      · obtain ⟨pn, pg⟩ := p
        simp only at hk
        subst hk
        have h2 := lookupA_of_mem _ _ _ (updA_keys_nodup _ _ _ hwf.keysNodup) hp
        rw [lookupA_updA_self _ _ _] at h2
        injection h2 with h2
        rw [← h2]
        exact hgwf

/-- Every store reachable through `New` and `Add` is well-formed. -/
theorem built_storeWF {s : Store} (h : Built s) : StoreWF s := by
  induction h with
  | new names => exact storeWF_new names
  | add s name es s' _ hadd ih => exact storeWF_add ih hadd

/-! ## `find` decomposed: tokenize, then process the spans -/

theorem findLoop_eq_procSpans (rs : List Char) (groups : List Group) :
    ∀ (l : List Char) (off start : Nat) (prev : Bool)
      (pairs : List (Nat × Nat)) (results : Results),
      findLoop rs groups l off start prev pairs results =
        procSpans rs groups (tokLoop l off start prev) pairs results := by
  intro l
  induction l with
  | nil => intro off start prev pairs results; rfl
  | cons r rest ih =>
      intro off start prev pairs results
      simp only [findLoop, tokLoop]
      by_cases h1 : (prev && !(isSep r)) = true
      · rw [if_pos h1, if_pos h1]
        exact ih (off + 1) off (isSep r) pairs results
      · rw [if_neg h1, if_neg h1]
        by_cases h2 : (isSep r && !prev) = true
        · rw [if_pos h2, if_pos h2]
          rw [ih]
          rfl
        · rw [if_neg h2, if_neg h2]
          exact ih (off + 1) start (isSep r) pairs results

theorem find_eq_procSpans (rs : List Char) (groups : List Group) :
    find rs groups = procSpans rs groups (tokenize rs) [] [] :=
  findLoop_eq_procSpans rs groups rs 0 0 true [] []

/-- One `shift` step, on a window under capacity. -/
theorem shift_snd_eq (sp : Nat × Nat) (w : List (Nat × Nat)) (hw : w.length ≤ 20) :
    (shift sp w).2 = (w ++ [sp]).drop ((w.length + 1) - 20) := by
  by_cases h0 : w.length = 0
  · have : w = [] := List.eq_nil_of_length_eq_zero h0
    subst this
    simp [shift]
  · by_cases h20 : w.length = 20
    · cases w with
      | nil => simp at h0
      | cons x w' =>
          have h19 : w'.length = 19 := by simpa using h20
          unfold shift
          rw [if_neg (by simp), if_pos (by simp [h19])]
          simp only [List.tail_cons]
          have hd : (x :: w').length + 1 - 20 = 1 := by simp [h19]
          rw [hd, List.cons_append, List.drop_succ_cons, List.drop_zero]
    · unfold shift
      rw [if_neg h0, if_neg h20]
      have : w.length + 1 - 20 = 0 := by omega
      rw [this, List.drop_zero]

theorem foldShift_eq :
    ∀ (spans : List (Nat × Nat)) (w : List (Nat × Nat)), w.length ≤ 20 →
      spans.foldl (fun w sp => (shift sp w).2) w =
        (w ++ spans).drop ((w ++ spans).length - 20) := by
  intro spans
  induction spans with
  | nil =>
      intro w hw
      simp only [List.foldl_nil, List.append_nil]
      rw [Nat.sub_eq_zero_of_le hw, List.drop_zero]
  | cons sp more ih =>
      intro w hw
      simp only [List.foldl_cons]
      rw [shift_snd_eq sp w hw]
      have hlen : ((w ++ [sp]).drop ((w.length + 1) - 20)).length ≤ 20 := by
        rw [List.length_drop]
        simp only [List.length_append, List.length_cons, List.length_nil]
        omega
      rw [ih _ hlen]
      have hd : ((w ++ [sp]).drop (w.length + 1 - 20)) ++ more =
          ((w ++ [sp]) ++ more).drop (w.length + 1 - 20) :=
        (List.drop_append_of_le_length (by simpa using Nat.sub_le (w.length + 1) 20)).symm
      rw [hd, List.drop_drop]
      have hassoc : (w ++ [sp]) ++ more = w ++ sp :: more := by simp
      rw [hassoc]
      congr 1
      rw [List.length_drop]
      simp only [List.length_append, List.length_cons, List.length_nil]
      omega

/-- The window, after pushing any list of spans from empty, is the list of
the (at most 20) most recent spans, in insertion order. -/
theorem windowAfter_eq (spans : List (Nat × Nat)) :
    windowAfter spans = spans.drop (spans.length - 20) := by
  unfold windowAfter
  simpa using foldShift_eq spans [] (by simp)

theorem windowAfter_length_le (spans : List (Nat × Nat)) :
    (windowAfter spans).length ≤ 20 := by
  rw [windowAfter_eq, List.length_drop]
  omega

theorem procSpans_append (rs : List Char) (groups : List Group) :
    ∀ (xs ys : List (Nat × Nat)) (w : List (Nat × Nat)) (res : Results),
      procSpans rs groups (xs ++ ys) w res =
        procSpans rs groups ys (xs.foldl (fun w sp => (shift sp w).2) w)
          (procSpans rs groups xs w res) := by
  intro xs
  induction xs with
  | nil => intro ys w res; rfl
  | cons sp more ih =>
      intro ys w res
      simp only [List.cons_append, procSpans, List.foldl_cons]
      exact ih ys (shift sp w).2 _

/-! ## Structure of the separator-closed runs -/

theorem dropWhile_head_not {α : Type} {p : α → Bool} :
    ∀ {l : List α} {d : α} {l'' : List α},
      l.dropWhile p = d :: l'' → p d = false := by
  intro l
  induction l with
  | nil => intro d l'' h; simp [List.dropWhile] at h
  | cons c rest ih =>
      intro d l'' h
      by_cases hc : p c
      · rw [List.dropWhile_cons_of_pos hc] at h
        exact ih h
      · rw [List.dropWhile_cons_of_neg hc] at h
        injection h with h1 _
        subst h1
        simpa using hc

theorem takeWhile_add_dropWhile_length {α : Type} (p : α → Bool) (l : List α) :
    (l.takeWhile p).length + (l.dropWhile p).length = l.length := by
  conv_rhs => rw [← List.takeWhile_append_dropWhile (p := p) (l := l)]
  rw [List.length_append]

/-- Bounds and strict ordering of the separator-closed runs. -/
theorem specClosedRuns_props :
    ∀ (n : Nat) (l : List Char), l.length ≤ n → ∀ off,
      (∀ q ∈ specClosedRuns off l, off ≤ q.1 ∧ q.1 < q.2 ∧ q.2 < off + l.length) ∧
      List.Pairwise (fun p q => p.2 < q.1) (specClosedRuns off l) := by
  intro n
  induction n with
  | zero =>
      intro l hl off
      have : l = [] := List.eq_nil_of_length_eq_zero (Nat.le_zero.mp hl)
      subst this
      simp [specClosedRuns_nil]
  | succ m ih =>
      intro l hl off
      cases l with
      | nil => simp [specClosedRuns_nil]
      | cons c rest =>
          have hrest : rest.length ≤ m := by simpa using hl
          by_cases hsep : isSep c = true
          · rw [specClosedRuns_sep off rest hsep]
            obtain ⟨hb, hp⟩ := ih rest hrest (off + 1)
            refine ⟨?_, hp⟩
            intro q hq
            have := hb q hq
            simp only [List.length_cons]
            omega
          · have hsep' : isSep c = false := by simpa using hsep
            rw [specClosedRuns_word off rest hsep']
            by_cases hz : (rest.dropWhile notSep).length = 0
            · rw [if_pos hz]
              simp
            · rw [if_neg hz]
              rcases hdw : rest.dropWhile notSep with _ | ⟨d, l''⟩
              · rw [hdw] at hz; simp at hz
              · have hd : isSep d = true := by
                  have := dropWhile_head_not hdw
                  simpa [notSep] using this
                have hsum := takeWhile_add_dropWhile_length notSep rest
                rw [hdw] at hsum
                simp only [List.length_cons] at hsum
                have hl'' : l''.length ≤ m := by omega
                set m0 := off + 1 + (rest.takeWhile notSep).length with hm0
                have hrec : specClosedRuns m0 (d :: l'') =
                    specClosedRuns (m0 + 1) l'' :=
                  specClosedRuns_sep m0 l'' hd
                obtain ⟨hb, hp⟩ := ih l'' hl'' (m0 + 1)
                constructor
                · intro q hq
                  rcases List.mem_cons.mp hq with h1 | h1
                  · subst h1
                    simp only [List.length_cons]
                    omega
                  · rw [hrec] at h1
                    have := hb q h1
                    simp only [List.length_cons]
                    omega
                · rw [List.pairwise_cons]
                  refine ⟨?_, by rw [hrec]; exact hp⟩
                  intro q hq
                  rw [hrec] at hq
                  have := hb q hq
                  omega

/-- Every separator-closed run starts at a word start, ends strictly inside
the input at a separator, and covers the maximal run from its start. -/
theorem specClosedRuns_subset_tokens :
    ∀ (n : Nat) (l : List Char), l.length ≤ n → ∀ off q,
      q ∈ specClosedRuns off l → off ≤ q.1 ∧ q.1 < q.2 ∧ q.2 < off + l.length :=
  fun n l hl off q hq => ((specClosedRuns_props n l hl off).1 q hq)

/-! ## Index helpers -/

theorem getD_drop {α : Type} (l : List α) (m n : Nat) (d : α) :
    (l.drop m).getD n d = l.getD (m + n) d := by
  by_cases h : m + n < l.length
  · rw [List.getD_eq_getElem _ _ (by rw [List.length_drop]; omega),
      List.getElem_drop, List.getD_eq_getElem _ _ h]
  · rw [List.getD_eq_default _ _ (by rw [List.length_drop]; omega),
      List.getD_eq_default _ _ (by omega)]

theorem length_takeWhile_le_of_not {α : Type} (p : α → Bool) (d : α) :
    ∀ (l : List α) (t : Nat), t < l.length → p (l.getD t d) = false →
      (l.takeWhile p).length ≤ t := by
  intro l
  induction l with
  | nil => intro t ht _; simp at ht
  | cons c rest ih =>
      intro t ht hp
      cases t with
      | zero =>
          simp only [List.getD_cons_zero] at hp
          rw [List.takeWhile_cons_of_neg (by simp [hp])]
          simp
      | succ t' =>
          by_cases hc : p c
          · rw [List.takeWhile_cons_of_pos hc]
            simp only [List.length_cons]
            have := ih t' (by simpa using ht) (by simpa using hp)
            omega
          · rw [List.takeWhile_cons_of_neg hc]
            simp

theorem le_length_takeWhile {α : Type} (p : α → Bool) (d : α) :
    ∀ (l : List α) (t : Nat), t ≤ l.length →
      (∀ i, i < t → p (l.getD i d) = true) → t ≤ (l.takeWhile p).length := by
  intro l
  induction l with
  | nil => intro t ht _; simpa using ht
  | cons c rest ih =>
      intro t ht hp
      cases t with
      | zero => simp
      | succ t' =>
          have hc : p c = true := by
            have := hp 0 (by omega)
            simpa using this
          rw [List.takeWhile_cons_of_pos hc]
          simp only [List.length_cons]
          have := ih t' (by simpa using ht)
            (fun i hi => by
              have := hp (i + 1) (by omega)
              simpa using this)
          omega

/-! ## Span membership in the tokenizer output -/

/-- Word spans emitted by the tokenizer state machine: in the in-separator
state every closed word yields its span; in the in-word state the current
word closes at the next separator and later words are also emitted. -/
theorem tokLoop_mem (l : List Char) :
    (∀ off start j, j < l.length → notSep (l.getD j ' ') = true →
      (j = 0 ∨ isSep (l.getD (j - 1) ' ') = true) →
      (∃ k, j < k ∧ k < l.length ∧ isSep (l.getD k ' ') = true) →
      (off + j, off + j + ((l.drop j).takeWhile notSep).length) ∈
        tokLoop l off start true) ∧
    (∀ off start, (∃ k, k < l.length ∧ isSep (l.getD k ' ') = true) →
      (start, off + (l.takeWhile notSep).length) ∈ tokLoop l off start false) ∧
    (∀ off start j, 1 ≤ j → j < l.length → notSep (l.getD j ' ') = true →
      isSep (l.getD (j - 1) ' ') = true →
      (∃ k, j < k ∧ k < l.length ∧ isSep (l.getD k ' ') = true) →
      (off + j, off + j + ((l.drop j).takeWhile notSep).length) ∈
        tokLoop l off start false) := by
  induction l with
  | nil =>
      refine ⟨?_, ?_, ?_⟩
      · intro off start j hj; simp at hj
      · intro off start ⟨k, hk, _⟩; simp at hk
      · intro off start j _ hj; simp at hj
  | cons c rest ih =>
      obtain ⟨ih1, ih2, ih3⟩ := ih
      by_cases hsep : isSep c = true
      · have hstep1 : ∀ off start, tokLoop (c :: rest) off start true =
            tokLoop rest (off + 1) start true := by
          intro off start
          simp [tokLoop, hsep]
        have hstep2 : ∀ off start, tokLoop (c :: rest) off start false =
            (start, off) :: tokLoop rest (off + 1) start true := by
          intro off start
          simp [tokLoop, hsep]
        refine ⟨?_, ?_, ?_⟩
        · -- M1, separator head
          intro off start j hj hw hprev hcl
          cases j with
          | zero =>
              simp [List.getD_cons_zero, notSep, hsep] at hw
          | succ j' =>
              rw [hstep1]
              obtain ⟨k, hk1, hk2, hk3⟩ := hcl
              cases k with
              | zero => omega
              | succ k' =>
                  have hmem := ih1 (off + 1) start j' (by simpa using hj)
                    (by simpa using hw)
                    (by
                      cases j' with
                      | zero => exact Or.inl rfl
                      | succ j'' =>
                          right
                          rcases hprev with h | h
                          · omega
                          · simpa using h)
                    ⟨k', by omega, by simpa using hk2, by simpa using hk3⟩
                  have ha : off + 1 + j' = off + (j' + 1) := by omega
                  rw [ha] at hmem
                  simpa using hmem
        · -- M2, separator head: the open word closes here
          intro off start hcl
          rw [hstep2]
          rw [List.takeWhile_cons_of_neg (by simp [notSep, hsep])]
          simp
        · -- M3, separator head
          intro off start j hj1 hj hw hprev hcl
          rw [hstep2]
          right
          obtain ⟨k, hk1, hk2, hk3⟩ := hcl
          cases j with
          | zero => omega
          | succ j' =>
              cases k with
              | zero => omega
              | succ k' =>
                  have hmem := ih1 (off + 1) start j' (by simpa using hj)
                    (by simpa using hw)
                    (by
                      cases j' with
                      | zero => exact Or.inl rfl
                      | succ j'' =>
                          right
                          simpa using hprev)
                    ⟨k', by omega, by simpa using hk2, by simpa using hk3⟩
                  have ha : off + 1 + j' = off + (j' + 1) := by omega
                  rw [ha] at hmem
                  simpa using hmem
      · have hsep' : isSep c = false := by simpa using hsep
        have hstep1 : ∀ off start, tokLoop (c :: rest) off start true =
            tokLoop rest (off + 1) off false := by
          intro off start
          simp [tokLoop, hsep']
        have hstep2 : ∀ off start, tokLoop (c :: rest) off start false =
            tokLoop rest (off + 1) start false := by
          intro off start
          simp [tokLoop, hsep']
        refine ⟨?_, ?_, ?_⟩
        · -- M1, word head
          intro off start j hj hw hprev hcl
          rw [hstep1]
          cases j with
          | zero =>
              -- the span starting right here
              rw [List.drop_zero, List.takeWhile_cons_of_pos (by simp [notSep, hsep'])]
              simp only [List.length_cons, Nat.add_zero]
              obtain ⟨k, hk1, hk2, hk3⟩ := hcl
              cases k with
              | zero => omega
              | succ k' =>
                  have hmem := ih2 (off + 1) off
                    ⟨k', by simpa using hk2, by simpa using hk3⟩
                  have ha : off + 1 + (rest.takeWhile notSep).length =
                      off + ((rest.takeWhile notSep).length + 1) := by omega
                  rw [ha] at hmem
                  exact hmem
          | succ j' =>
              -- the word start lies beyond this word
              have hj'1 : 1 ≤ j' := by
                by_contra hlt
                push_neg at hlt
                interval_cases j'
                rcases hprev with h | h
                · omega
                · simp only [Nat.sub_self, List.getD_cons_zero] at h
                  rw [h] at hsep'
                  simp at hsep'
              obtain ⟨k, hk1, hk2, hk3⟩ := hcl
              cases k with
              | zero => omega
              | succ k' =>
                  have hmem := ih3 (off + 1) off j' hj'1 (by simpa using hj)
                    (by simpa using hw)
                    (by
                      rcases hprev with h | h
                      · omega
                      · obtain ⟨j'', rfl⟩ := Nat.exists_eq_add_of_le hj'1
                        simpa [Nat.add_comm 1 j''] using h)
                    ⟨k', by omega, by simpa using hk2, by simpa using hk3⟩
                  have ha : off + 1 + j' = off + (j' + 1) := by omega
                  rw [ha] at hmem
                  simpa using hmem
        · -- M2, word head: the open word continues
          intro off start hcl
          rw [hstep2]
          rw [List.takeWhile_cons_of_pos (by simp [notSep, hsep'])]
          simp only [List.length_cons]
          obtain ⟨k, hk2, hk3⟩ := hcl
          cases k with
          | zero =>
              simp only [List.getD_cons_zero] at hk3
              rw [hk3] at hsep'
              simp at hsep'
          | succ k' =>
              have hmem := ih2 (off + 1) start
                ⟨k', by simpa using hk2, by simpa using hk3⟩
              have ha : off + 1 + (rest.takeWhile notSep).length =
                  off + ((rest.takeWhile notSep).length + 1) := by omega
              rw [ha] at hmem
              exact hmem
        · -- M3, word head
          intro off start j hj1 hj hw hprev hcl
          rw [hstep2]
          have hj2 : 2 ≤ j := by
            by_contra hlt
            push_neg at hlt
            interval_cases j
            simp only [Nat.sub_self, List.getD_cons_zero] at hprev
            rw [hprev] at hsep'
            simp at hsep'
          cases j with
          | zero => omega
          | succ j' =>
              obtain ⟨k, hk1, hk2, hk3⟩ := hcl
              cases k with
              | zero => omega
              | succ k' =>
                  have hmem := ih3 (off + 1) start j' (by omega) (by simpa using hj)
                    (by simpa using hw)
                    (by
                      obtain ⟨j'', rfl⟩ := Nat.exists_eq_add_of_le (by omega : 1 ≤ j')
                      simpa [Nat.add_comm 1 j''] using hprev)
                    ⟨k', by omega, by simpa using hk2, by simpa using hk3⟩
                  have ha : off + 1 + j' = off + (j' + 1) := by omega
                  rw [ha] at hmem
                  simpa using hmem

/-! ## Characterizing the appended matches -/

/-- The number of phrases of a bucket that the scan appends for a candidate:
the prefix before the first length mismatch, filtered by the
case-insensitive comparison. -/
def scanHits (rs : List Char) (p1 p2 : Nat × Nat) (ents : List (List Char)) : Nat :=
  ((ents.takeWhile (fun ent => (ent.length : Int) = (p2.2 : Int) - (p1.1 : Int))).filter
    (fun ent => ciMatch ent (slice rs p1.1 p2.2))).length

/-- The number of matches `checkGroup` appends for one candidate. -/
def groupHits (rs : List Char) (g : Group) (p1 p2 : Nat × Nat) : Nat :=
  if (p2.2 : Int) - (p1.1 : Int) > (g.maxLen : Int) then 0
  else
    match hash (slice rs p1.1 p2.2) with
    | none => 0
    | some h =>
        match lookupA g.entities h with
        | none => 0
        | some ents => scanHits rs p1 p2 ents

/-- The matches a backward walk appends, in order. -/
def runStackHits (rs : List Char) (g : Group) (p2 : Nat × Nat) :
    List (Nat × Nat) → List Entity
  | [] => []
  | p1 :: older =>
      if (p2.2 : Int) - (p1.1 : Int) > (MaxEntityLen : Int) then []
      else
        List.replicate (groupHits rs g p1 p2) ⟨slice rs p1.1 p2.2, p1.1⟩ ++
          runStackHits rs g p2 older

/-- The matches appended while processing a list of spans. -/
def spansHits (rs : List Char) (g : Group) :
    List (Nat × Nat) → List (Nat × Nat) → List Entity
  | [], _ => []
  | sp :: more, w =>
      (if 1 < ((shift sp w).2).length then
        match ((shift sp w).2).reverse with
        | [] => []
        | p2 :: olders => runStackHits rs g p2 (p2 :: olders)
      else []) ++ spansHits rs g more (shift sp w).2

theorem resAppend_resultsFor (m : Results) (n n' : String) (e : Entity) :
    resultsFor (resAppend m n e) n' =
      if n = n' then resultsFor m n' ++ [e] else resultsFor m n' := by
  unfold resAppend resultsFor
  by_cases h : n = n'
  · subst h
    rw [lookupA_updA_self]
    simp
  · rw [lookupA_updA_other _ _ _ _ h, if_neg h]

theorem scanBucket_resultsFor (rs : List Char) (gname : String)
    (p1 p2 : Nat × Nat) :
    ∀ (ents : List (List Char)) (res : Results) (n : String),
      resultsFor (scanBucket rs gname p1 p2 ents res) n =
        resultsFor res n ++
          (if n = gname then
            List.replicate (scanHits rs p1 p2 ents) ⟨slice rs p1.1 p2.2, p1.1⟩
          else []) := by
  intro ents
  induction ents with
  | nil =>
      intro res n
      simp [scanBucket, scanHits]
  | cons ent more ih =>
      intro res n
      by_cases hlen : (ent.length : Int) = (p2.2 : Int) - (p1.1 : Int)
      · have hstep : scanBucket rs gname p1 p2 (ent :: more) res =
            scanBucket rs gname p1 p2 more
              (if ciMatch ent (slice rs p1.1 p2.2) then
                resAppend res gname ⟨slice rs p1.1 p2.2, p1.1⟩
              else res) := by
          simp [scanBucket, hlen]
        have hhits : scanHits rs p1 p2 (ent :: more) =
            (if ciMatch ent (slice rs p1.1 p2.2) then 1 else 0) +
              scanHits rs p1 p2 more := by
          unfold scanHits
          rw [List.takeWhile_cons_of_pos (by simpa using hlen)]
          by_cases hci : ciMatch ent (slice rs p1.1 p2.2)
          · rw [List.filter_cons_of_pos (by simpa using hci), if_pos hci]
            simp [Nat.add_comm]
          · rw [List.filter_cons_of_neg (by simpa using hci), if_neg hci]
            simp
      
        rw [hstep, ih, hhits]
        by_cases hci : ciMatch ent (slice rs p1.1 p2.2)
        · rw [if_pos hci, resAppend_resultsFor]
          by_cases hn : n = gname
          · rw [if_pos hn, if_pos ((by rw [hn]) : gname = n), if_pos hn]
            rw [List.append_assoc]
            congr 1
            rw [if_pos hci, Nat.add_comm 1, List.replicate_succ]
            simp
          · rw [if_neg hn, if_neg (fun h => hn h.symm), if_neg hn]
        · rw [if_neg hci]
          simp [hci]
      · have hstep : scanBucket rs gname p1 p2 (ent :: more) res = res := by
          simp [scanBucket, hlen]
        have hhits : scanHits rs p1 p2 (ent :: more) = 0 := by
          unfold scanHits
          rw [List.takeWhile_cons_of_neg (by simpa using hlen)]
          simp
        rw [hstep, hhits]
        simp

theorem checkGroup_resultsFor (rs : List Char) (p1 p2 : Nat × Nat)
    (res : Results) (g : Group) (n : String) :
    resultsFor (checkGroup rs p1 p2 res g) n =
      resultsFor res n ++
        (if n = g.name then
          List.replicate (groupHits rs g p1 p2) ⟨slice rs p1.1 p2.2, p1.1⟩
        else []) := by
  by_cases hg : (p2.2 : Int) - (p1.1 : Int) > (g.maxLen : Int)
  · have h1 : checkGroup rs p1 p2 res g = res := by simp [checkGroup, hg]
    have h2 : groupHits rs g p1 p2 = 0 := by simp [groupHits, hg]
    rw [h1, h2]
    simp
  · rcases hh : hash (slice rs p1.1 p2.2) with _ | k
    · have h1 : checkGroup rs p1 p2 res g = res := by simp [checkGroup, hg, hh]
      have h2 : groupHits rs g p1 p2 = 0 := by simp [groupHits, hg, hh]
      rw [h1, h2]
      simp
    · rcases hl : lookupA g.entities k with _ | ents
      · have h1 : checkGroup rs p1 p2 res g = res := by
          simp [checkGroup, hg, hh, hl]
        have h2 : groupHits rs g p1 p2 = 0 := by
          simp [groupHits, hg, hh, hl]
        rw [h1, h2]
        simp
      · have h1 : checkGroup rs p1 p2 res g =
            scanBucket rs g.name p1 p2 ents res := by
          simp [checkGroup, hg, hh, hl]
        have h2 : groupHits rs g p1 p2 = scanHits rs p1 p2 ents := by
          simp [groupHits, hg, hh, hl]
        rw [h1, h2, scanBucket_resultsFor]

theorem runStack_resultsFor (rs : List Char) (g : Group) (p2 : Nat × Nat) :
    ∀ (walk : List (Nat × Nat)) (res : Results) (n : String),
      resultsFor (runStack rs [g] p2 walk res) n =
        resultsFor res n ++
          (if n = g.name then runStackHits rs g p2 walk else []) := by
  intro walk
  induction walk with
  | nil =>
      intro res n
      simp [runStack, runStackHits]
  | cons p1 older ih =>
      intro res n
      by_cases hbrk : (p2.2 : Int) - (p1.1 : Int) > (MaxEntityLen : Int)
      · have h1 : runStack rs [g] p2 (p1 :: older) res = res := by
          simp [runStack, hbrk]
        have h2 : runStackHits rs g p2 (p1 :: older) = [] := by
          simp [runStackHits, hbrk]
        rw [h1, h2]
        simp
      · have h1 : runStack rs [g] p2 (p1 :: older) res =
            runStack rs [g] p2 older (checkGroup rs p1 p2 res g) := by
          simp [runStack, hbrk, checkGroups]
        have h2 : runStackHits rs g p2 (p1 :: older) =
            List.replicate (groupHits rs g p1 p2) ⟨slice rs p1.1 p2.2, p1.1⟩ ++
              runStackHits rs g p2 older := by
          simp [runStackHits, hbrk]
        rw [h1, h2, ih, checkGroup_resultsFor]
        by_cases hn : n = g.name
        · rw [if_pos hn, if_pos hn, if_pos hn]
          rw [List.append_assoc]
        · rw [if_neg hn, if_neg hn, if_neg hn]
          simp

theorem procSpans_resultsFor (rs : List Char) (g : Group) :
    ∀ (spans : List (Nat × Nat)) (w : List (Nat × Nat)) (res : Results)
      (n : String),
      resultsFor (procSpans rs [g] spans w res) n =
        resultsFor res n ++ (if n = g.name then spansHits rs g spans w else []) := by
  intro spans
  induction spans with
  | nil =>
      intro w res n
      simp [procSpans, spansHits]
  | cons sp more ih =>
      intro w res n
      show resultsFor (procSpans rs [g] (sp :: more) w res) n = _
      rw [procSpans, spansHits]
      rw [ih]
      by_cases hlen : 1 < ((shift sp w).2).length
      · rw [if_pos hlen, if_pos hlen]
        rcases hrev : ((shift sp w).2).reverse with _ | ⟨p2, olders⟩
        · simp
        · rw [runStack_resultsFor]
          by_cases hn : n = g.name
          · subst hn
            simp [List.append_assoc]
          · simp [hn]
      · rw [if_neg hlen, if_neg hlen]
        simp

/-- All matches of a single-group `find`, as one flat list. -/
theorem find_resultsFor (rs : List Char) (g : Group) :
    resultsFor (find rs [g]) g.name = spansHits rs g (tokenize rs) [] := by
  rw [find_eq_procSpans, procSpans_resultsFor]
  simp [resultsFor, lookupA]

/-! ## Counting matches -/

theorem slice_length (rs : List Char) (a b : Nat) :
    (slice rs a b).length = min (b - a) (rs.length - a) := by
  simp [slice]

theorem shift_snd_append (sp : Nat × Nat) (w : List (Nat × Nat)) :
    ∃ q, (shift sp w).2 = q ++ [sp] := by
  unfold shift
  by_cases h0 : w.length = 0
  · rw [if_pos h0]
    exact ⟨w, rfl⟩
  · rw [if_neg h0]
    by_cases h20 : w.length = 20
    · rw [if_pos h20]
      exact ⟨w.tail, rfl⟩
    · rw [if_neg h20]
      exact ⟨w, rfl⟩

theorem groupHits_pos {rs : List Char} {g : Group} {p1 p2 : Nat × Nat}
    (h : 0 < groupHits rs g p1 p2) :
    ¬ ((p2.2 : Int) - (p1.1 : Int) > (g.maxLen : Int)) ∧
    ∃ k ents ent, hash (slice rs p1.1 p2.2) = some k ∧
      lookupA g.entities k = some ents ∧ ent ∈ ents ∧
      (ent.length : Int) = (p2.2 : Int) - (p1.1 : Int) ∧
      ciMatch ent (slice rs p1.1 p2.2) = true := by
  unfold groupHits at h
  by_cases hg : (p2.2 : Int) - (p1.1 : Int) > (g.maxLen : Int)
  · rw [if_pos hg] at h; simp at h
  · rw [if_neg hg] at h
    refine ⟨hg, ?_⟩
    rcases hh : hash (slice rs p1.1 p2.2) with _ | k
    · rw [hh] at h; simp at h
    · rw [hh] at h
      dsimp only at h
      rcases hl : lookupA g.entities k with _ | ents
      · rw [hl] at h; simp at h
      · rw [hl] at h
        dsimp only at h
        unfold scanHits at h
        rw [List.length_pos] at h
        rcases List.exists_mem_of_ne_nil _ h with ⟨ent, hent⟩
        rw [List.mem_filter] at hent
        obtain ⟨htk, hci⟩ := hent
        have hmem : ent ∈ ents :=
          List.Sublist.subset (List.takeWhile_sublist _) htk
        have hpred := List.mem_takeWhile_imp htk
        exact ⟨k, ents, ent, rfl, hl, hmem, by simpa using hpred,
          by simpa using hci⟩

theorem mem_runStackHits {rs : List Char} {g : Group} {p2 : Nat × Nat} :
    ∀ {walk : List (Nat × Nat)} {y : Entity}, y ∈ runStackHits rs g p2 walk →
      ∃ p1 ∈ walk, y = ⟨slice rs p1.1 p2.2, p1.1⟩ ∧
        ¬ ((p2.2 : Int) - (p1.1 : Int) > (MaxEntityLen : Int)) ∧
        0 < groupHits rs g p1 p2 := by
  intro walk
  induction walk with
  | nil => intro y hy; simp [runStackHits] at hy
  | cons p1 older ih =>
      intro y hy
      by_cases hbrk : (p2.2 : Int) - (p1.1 : Int) > (MaxEntityLen : Int)
      · rw [runStackHits, if_pos hbrk] at hy
        simp at hy
      · rw [runStackHits, if_neg hbrk] at hy
        rcases List.mem_append.mp hy with h | h
        · rw [List.mem_replicate] at h
          exact ⟨p1, List.mem_cons_self _ _, h.2, hbrk,
            Nat.pos_of_ne_zero h.1⟩
        · obtain ⟨q, hq, hrest⟩ := ih h
          exact ⟨q, List.mem_cons_of_mem _ hq, hrest⟩

theorem mem_spansHits {rs : List Char} {g : Group} :
    ∀ {spans : List (Nat × Nat)} {w : List (Nat × Nat)} {y : Entity},
      y ∈ spansHits rs g spans w →
      ∃ sp ∈ spans, ∃ p1 : Nat × Nat, y = ⟨slice rs p1.1 sp.2, p1.1⟩ ∧
        ¬ ((sp.2 : Int) - (p1.1 : Int) > (MaxEntityLen : Int)) ∧
        0 < groupHits rs g p1 sp := by
  intro spans
  induction spans with
  | nil => intro w y hy; simp [spansHits] at hy
  | cons sp more ih =>
      intro w y hy
      rw [spansHits] at hy
      rcases List.mem_append.mp hy with h | h
      · by_cases hlen : 1 < ((shift sp w).2).length
        · rw [if_pos hlen] at h
          obtain ⟨q, hq⟩ := shift_snd_append sp w
          rw [hq] at h
          rw [List.reverse_append] at h
          simp only [List.reverse_cons, List.reverse_nil, List.nil_append,
            List.cons_append] at h
          obtain ⟨p1, hp1, hrest⟩ := mem_runStackHits h
          exact ⟨sp, List.mem_cons_self _ _, p1, hrest⟩
        · rw [if_neg hlen] at h
          simp at h
      · obtain ⟨sp', hsp', hrest⟩ := ih h
        exact ⟨sp', List.mem_cons_of_mem _ hsp', hrest⟩

theorem spansHits_append (rs : List Char) (g : Group) :
    ∀ (xs ys : List (Nat × Nat)) (w : List (Nat × Nat)),
      spansHits rs g (xs ++ ys) w =
        spansHits rs g xs w ++
          spansHits rs g ys (xs.foldl (fun w sp => (shift sp w).2) w) := by
  intro xs
  induction xs with
  | nil => intro ys w; rfl
  | cons sp more ih =>
      intro ys w
      simp only [List.cons_append, spansHits, List.foldl_cons]
      simp [ih, List.append_assoc]

/-- No match of a foreign event can coincide with the target match: every
event's matches end exactly at the event span's end. -/
theorem count_spansHits_zero {rs : List Char} {g : Group} {s e : Nat}
    (hse : s < e) (he : e ≤ rs.length) :
    ∀ {spans : List (Nat × Nat)} {w : List (Nat × Nat)},
      (∀ sp ∈ spans, sp.2 ≤ rs.length ∧ sp.2 ≠ e) →
      List.count (⟨slice rs s e, s⟩ : Entity) (spansHits rs g spans w) = 0 := by
  intro spans w hsp
  rw [List.count_eq_zero]
  intro hmem
  obtain ⟨sp, hspmem, p1, hy, _, _⟩ := mem_spansHits hmem
  obtain ⟨hb, hne⟩ := hsp sp hspmem
  have hoff : p1.1 = s := congrArg Entity.offset hy |>.symm
  have htext : slice rs s e = slice rs p1.1 sp.2 := congrArg Entity.text hy
  rw [hoff] at htext
  have hlen := congrArg List.length htext
  rw [slice_length, slice_length] at hlen
  have h1 : min (e - s) (rs.length - s) = e - s := by omega
  rw [h1] at hlen
  have : sp.2 = e := by omega
  exact hne this

theorem count_replicate_self {α : Type} [DecidableEq α] (k : Nat) (x : α) :
    List.count x (List.replicate k x) = k := by
  simp

theorem count_replicate_ne {α : Type} [DecidableEq α] {x y : α} (h : x ≠ y)
    (k : Nat) : List.count x (List.replicate k y) = 0 := by
  rw [List.count_eq_zero]
  intro hmem
  exact h (List.eq_of_mem_replicate hmem)

theorem count_runStackHits_zero_offset {rs : List Char} {g : Group}
    {p2 : Nat × Nat} {x : Entity} :
    ∀ {walk : List (Nat × Nat)}, (∀ p1 ∈ walk, p1.1 ≠ x.offset) →
      List.count x (runStackHits rs g p2 walk) = 0 := by
  intro walk hwalk
  rw [List.count_eq_zero]
  intro hmem
  obtain ⟨p1, hp1, hy, _, _⟩ := mem_runStackHits hmem
  exact hwalk p1 hp1 (by rw [hy])

/-- The target event's walk contributes exactly the bucket's hit count at
the candidate `[s, e)`: newer window entries are strictly inside the
candidate (no break, different offsets), older ones start before `s`. -/
theorem count_runStackHits_target (rs : List Char) (g : Group)
    (s e b a : Nat) (pre older : List (Nat × Nat))
    (hpre : ∀ p ∈ pre, s < p.1)
    (holder : ∀ p ∈ older, p.1 < s)
    (hlen : (e : Int) - (s : Int) ≤ (MaxEntityLen : Int)) :
    List.count (⟨slice rs s e, s⟩ : Entity)
        (runStackHits rs g (a, e) (pre ++ (s, b) :: older)) =
      groupHits rs g (s, b) (a, e) := by
  induction pre with
  | nil =>
      simp only [List.nil_append]
      rw [runStackHits, if_neg (by simpa using hlen)]
      rw [List.count_append]
      have h1 : List.count (⟨slice rs s e, s⟩ : Entity)
          (List.replicate (groupHits rs g (s, b) (a, e))
            ⟨slice rs ((s, b) : Nat × Nat).1 ((a, e) : Nat × Nat).2,
              ((s, b) : Nat × Nat).1⟩) = groupHits rs g (s, b) (a, e) := by
        exact count_replicate_self _ _
      rw [h1, count_runStackHits_zero_offset (fun p hp => by
        have := holder p hp
        simp only
        omega)]
      omega
  | cons p pre' ih =>
      have hps : s < p.1 := hpre p (List.mem_cons_self _ _)
      simp only [List.cons_append]
      rw [runStackHits, if_neg (by
        simp only
        push_neg
        have : (s : Int) < (p.1 : Int) := by exact_mod_cast hps
        omega)]
      rw [List.count_append]
      rw [count_replicate_ne (by
        intro hcontra
        have := congrArg Entity.offset hcontra
        simp only at this
        omega)]
      rw [Nat.zero_add]
      exact ih (fun q hq => hpre q (List.mem_cons_of_mem _ hq))

/-- How many spans fit strictly between two positions: consecutive closed
runs are separated by at least one separator, so starts advance by at
least 2. -/
theorem count_spans_bound :
    ∀ (v : List (Nat × Nat)) (lo hi : Nat),
      List.Pairwise (fun p q => p.2 < q.1) v →
      (∀ q ∈ v, lo < q.1 ∧ q.1 < q.2 ∧ q.1 < hi) →
      2 * v.length ≤ hi - lo + 1 := by
  intro v
  induction v with
  | nil => intro lo hi _ _; simp
  | cons q v' ih =>
      intro lo hi hpw hb
      rw [List.pairwise_cons] at hpw
      obtain ⟨hq1, hq2, hq3⟩ := hb q (List.mem_cons_self _ _)
      have hv' : ∀ r ∈ v', lo + 2 < r.1 ∧ r.1 < r.2 ∧ r.1 < hi := by
        intro r hr
        obtain ⟨_, hr2, hr3⟩ := hb r (List.mem_cons_of_mem _ hr)
        have := hpw.1 r hr
        refine ⟨by omega, hr2, hr3⟩
      have := ih (lo + 2) hi hpw.2 hv'
      simp only [List.length_cons]
      omega

/-! ## Existence of the relevant spans -/

theorem word_start_exists (l : List Char) :
    ∀ i, i < l.length → notSep (l.getD i ' ') = true →
      ∃ a, a ≤ i ∧ notSep (l.getD a ' ') = true ∧
        (a = 0 ∨ isSep (l.getD (a - 1) ' ') = true) ∧
        (∀ t, a ≤ t → t ≤ i → notSep (l.getD t ' ') = true) := by
  intro i
  induction i with
  | zero =>
      intro hi hw
      exact ⟨0, le_rfl, hw, Or.inl rfl, fun t ht1 ht2 => by
        have : t = 0 := by omega
        subst this
        exact hw⟩
  | succ i' ih =>
      intro hi hw
      by_cases hprev : isSep (l.getD i' ' ') = true
      · exact ⟨i' + 1, le_rfl, hw, Or.inr (by simpa using hprev),
          fun t ht1 ht2 => by
            have : t = i' + 1 := by omega
            subst this
            exact hw⟩
      · have hprev' : notSep (l.getD i' ' ') = true := by
          simp [notSep]
          simpa using hprev
        obtain ⟨a, ha1, ha2, ha3, ha4⟩ := ih (by omega) hprev'
        exact ⟨a, by omega, ha2, ha3, fun t ht1 ht2 => by
          rcases Nat.lt_or_ge t (i' + 1) with h | h
          · exact ha4 t ht1 (by omega)
          · have : t = i' + 1 := by omega
            subst this
            exact hw⟩

/-- The run starting at a word start `a` whose word region reaches `e - 1`
with a separator at `e` is exactly the span `(a, e)`. -/
theorem run_length_exact (rs : List Char) (a e : Nat)
    (hae : a < e) (he : e < rs.length)
    (hrange : ∀ t, a ≤ t → t ≤ e - 1 → notSep (rs.getD t ' ') = true)
    (hsepe : isSep (rs.getD e ' ') = true) :
    ((rs.drop a).takeWhile notSep).length = e - a := by
  have hle : ((rs.drop a).takeWhile notSep).length ≤ e - a := by
    refine length_takeWhile_le_of_not notSep ' ' (rs.drop a) (e - a) ?_ ?_
    · rw [List.length_drop]; omega
    · rw [getD_drop]
      have h2 : a + (e - a) = e := by omega
      rw [h2]
      unfold notSep
      rw [hsepe]
      rfl
  have hge : e - a ≤ ((rs.drop a).takeWhile notSep).length := by
    refine le_length_takeWhile notSep ' ' (rs.drop a) (e - a) ?_ ?_
    · rw [List.length_drop]; omega
    · intro i hi
      rw [getD_drop]
      exact hrange (a + i) (by omega) (by omega)
  omega

/-- The word closing at a separator position `e` is emitted as a span
`(a, e)`; `a` is its word start. -/
theorem span_end_mem (rs : List Char) (e : Nat) (he1 : 1 ≤ e)
    (he : e < rs.length) (hsepe : isSep (rs.getD e ' ') = true)
    (hw : notSep (rs.getD (e - 1) ' ') = true) :
    ∃ a, a < e ∧ notSep (rs.getD a ' ') = true ∧
      (a = 0 ∨ isSep (rs.getD (a - 1) ' ') = true) ∧
      (∀ t, a ≤ t → t ≤ e - 1 → notSep (rs.getD t ' ') = true) ∧
      (a, e) ∈ tokenize rs := by
  obtain ⟨a, ha1, ha2, ha3, ha4⟩ :=
    word_start_exists rs (e - 1) (by omega) hw
  have hae : a < e := by omega
  have hmem := (tokLoop_mem rs).1 0 0 a (by omega) ha2 ha3
    ⟨e, hae, he, hsepe⟩
  rw [run_length_exact rs a e hae he ha4 hsepe] at hmem
  refine ⟨a, hae, ha2, ha3, ha4, ?_⟩
  have : a + (e - a) = e := by omega
  simpa [this] using hmem

/-- A word start `s` followed by some later separator is emitted as a span
starting at `s`. -/
theorem span_start_mem (rs : List Char) (s e : Nat)
    (hs : notSep (rs.getD s ' ') = true)
    (hsL : s = 0 ∨ isSep (rs.getD (s - 1) ' ') = true)
    (hse : s < e) (he : e < rs.length)
    (hsepe : isSep (rs.getD e ' ') = true) :
    ∃ b, s < b ∧ (s, b) ∈ tokenize rs := by
  have hmem := (tokLoop_mem rs).1 0 0 s (by omega) hs hsL ⟨e, hse, he, hsepe⟩
  refine ⟨s + ((rs.drop s).takeWhile notSep).length, ?_, by simpa using hmem⟩
  have : 1 ≤ ((rs.drop s).takeWhile notSep).length := by
    refine le_length_takeWhile notSep ' ' (rs.drop s) 1 ?_ ?_
    · rw [List.length_drop]; omega
    · intro i hi
      interval_cases i
      rw [getD_drop]
      simpa using hs
  omega

/-- Bounds and ordering of the spans `find` pushes. -/
theorem tokenize_props (rs : List Char) :
    (∀ q ∈ tokenize rs, q.1 < q.2 ∧ q.2 < rs.length) ∧
    List.Pairwise (fun p q => p.2 < q.1) (tokenize rs) := by
  rw [tokenize_eq_specClosedRuns]
  obtain ⟨hb, hp⟩ := specClosedRuns_props rs.length rs le_rfl 0
  exact ⟨fun q hq => by
    obtain ⟨_, h2, h3⟩ := hb q hq
    exact ⟨h2, by omega⟩, hp⟩

/-! ## The bucket consulted for a candidate, and its case-equal entries -/

/-- The bucket `find` consults for a candidate text (empty when the key is
absent; the empty candidate, which never occurs, reads as an empty
bucket). -/
def bucketFor (g : Group) (C : List Char) : List (List Char) :=
  match hash C with
  | none => []
  | some k => (lookupA g.entities k).getD []

/-- How many registered phrases are equal to the candidate text up to case:
the search reports exactly this many matches for a detected candidate. -/
def ciHits (g : Group) (C : List Char) : Nat :=
  ((bucketFor g C).filter (fun ent => decide (ent.map toLower = C.map toLower))).length

theorem hash_of_ne_nil {C : List Char} (h : C ≠ []) : ∃ k, hash C = some k := by
  match C, h with
  | [c0], _ => exact ⟨_, rfl⟩
  | [c0, c1], _ => exact ⟨_, rfl⟩
  | c0 :: c1 :: c2 :: t, _ => exact ⟨_, rfl⟩

theorem takeWhile_eq_self_of_all {α : Type} {p : α → Bool} :
    ∀ {l : List α}, (∀ x ∈ l, p x = true) → l.takeWhile p = l := by
  intro l
  induction l with
  | nil => intro _; rfl
  | cons c rest ih =>
      intro h
      rw [List.takeWhile_cons_of_pos (h c (List.mem_cons_self _ _)),
        ih (fun x hx => h x (List.mem_cons_of_mem _ hx))]

theorem filter_congr_of_mem {α : Type} {p q : α → Bool} :
    ∀ {l : List α}, (∀ x ∈ l, p x = q x) → l.filter p = l.filter q := by
  intro l
  induction l with
  | nil => intro _; rfl
  | cons c rest ih =>
      intro h
      have hc := h c (List.mem_cons_self _ _)
      have ht := ih (fun x hx => h x (List.mem_cons_of_mem _ hx))
      by_cases hpc : p c = true
      · rw [List.filter_cons_of_pos hpc, List.filter_cons_of_pos (by rw [← hc]; exact hpc), ht]
      · have hpc' : p c = false := by simpa using hpc
        rw [List.filter_cons_of_neg (by simp [hpc']),
          List.filter_cons_of_neg (by simp [← hc, hpc']), ht]

/-- On a well-formed group, the matches appended for the candidate `[s, e)`
are exactly its case-equal bucket entries (independently of the window
pair ends `b`, `a`). -/
theorem groupHits_eq_ciHits (rs : List Char) (g : Group) (s e b a : Nat)
    (hwf : GroupWF g) (hse : s < e) (he : e ≤ rs.length) :
    groupHits rs g (s, b) (a, e) = ciHits g (slice rs s e) := by
  have hClen : (slice rs s e).length = e - s := by
    rw [slice_length]; omega
  have hCne : slice rs s e ≠ [] := by
    intro h
    rw [h] at hClen
    simp at hClen
    omega
  obtain ⟨k, hk⟩ := hash_of_ne_nil hCne
  rcases hl : lookupA g.entities k with _ | ents
  · have h1 : groupHits rs g (s, b) (a, e) = 0 := by
      by_cases hg : ((e : Int) - (s : Int) > (g.maxLen : Int))
      · simp [groupHits, hg]
      · simp [groupHits, hg, hk, hl]
    have h2 : ciHits g (slice rs s e) = 0 := by
      simp [ciHits, bucketFor, hk, hl]
    rw [h1, h2]
  · have hentry := mem_of_lookupA _ _ _ hl
    have hlen_all : ∀ ent ∈ ents, ent.length = e - s := by
      intro ent hent
      have hhe := hwf.buckets (k, ents) hentry ent hent
      have := hash_eq_length hhe hk
      omega
    by_cases hg : ((e : Int) - (s : Int) > (g.maxLen : Int))
    · have h1 : groupHits rs g (s, b) (a, e) = 0 := by
        simp [groupHits, hg]
      have h2 : ciHits g (slice rs s e) = 0 := by
        simp only [ciHits, bucketFor, hk, hl, Option.getD_some]
        rw [List.length_eq_zero, List.filter_eq_nil]
        intro ent hent hpred
        have hmle := hwf.maxLen (k, ents) hentry ent hent
        have hle := hlen_all ent hent
        have : e - s ≤ g.maxLen := by omega
        have hcontra : ((e : Int) - (s : Int) ≤ (g.maxLen : Int)) := by
          push_cast
          omega
        omega
      rw [h1, h2]
    · have h1 : groupHits rs g (s, b) (a, e) = scanHits rs (s, b) (a, e) ents := by
        simp [groupHits, hg, hk, hl]
      have htake : ents.takeWhile
          (fun ent => decide ((ent.length : Int) =
            (((a, e) : Nat × Nat).2 : Int) - (((s, b) : Nat × Nat).1 : Int))) = ents := by
        refine takeWhile_eq_self_of_all ?_
        intro ent hent
        have := hlen_all ent hent
        simp only [decide_eq_true_eq]
        push_cast
        omega
      have hfilter : ents.filter (fun ent => ciMatch ent (slice rs s e)) =
          ents.filter (fun ent => decide (ent.map toLower = (slice rs s e).map toLower)) := by
        refine filter_congr_of_mem ?_
        intro ent hent
        have hl2 : ent.length = (slice rs s e).length := by
          rw [hClen]; exact hlen_all ent hent
        cases hcm : ciMatch ent (slice rs s e) with
        | true =>
            have := (ciMatch_iff_map_eq hl2).mp hcm
            simp [this]
        | false =>
            symm
            rw [decide_eq_false_iff_not]
            intro hmm
            have := (ciMatch_iff_map_eq hl2).mpr hmm
            rw [hcm] at this
            simp at this
      have h2 : ciHits g (slice rs s e) =
          (ents.filter (fun ent => decide (ent.map toLower =
            (slice rs s e).map toLower))).length := by
        simp [ciHits, bucketFor, hk, hl]
      rw [h1, h2, ← hfilter]
      unfold scanHits
      rw [htake]

/-! ## The master counting theorem -/

/-- For a candidate `[s, e)` that starts at a word start, ends at a word end
closed by a separator, fits the global length cap, and is preceded by at
least one closed word, a single-group search reports exactly the bucket's
case-equal entries, as the match `(slice T s e, s)`. -/
theorem find_count_master (T : List Char) (g : Group) (s e : Nat)
    (hwf : GroupWF g)
    (hse : s < e) (heT : e < T.length)
    (hs0 : notSep (T.getD s ' ') = true)
    (hsL : s = 0 ∨ isSep (T.getD (s - 1) ' ') = true)
    (he1 : notSep (T.getD (e - 1) ' ') = true)
    (heS : isSep (T.getD e ' ') = true)
    (hml : e - s ≤ MaxEntityLen)
    (hfirst : ∃ q ∈ tokenize T, q.2 < e) :
    List.count (⟨slice T s e, s⟩ : Entity) (resultsFor (find T [g]) g.name) =
      ciHits g (slice T s e) := by
  obtain ⟨hbounds, hpw⟩ := tokenize_props T
  obtain ⟨a, hae, haW, haL, harange, haMem⟩ :=
    span_end_mem T e (by omega) heT heS he1
  have hsa : s ≤ a := by
    by_contra hlt
    push_neg at hlt
    have hs1 : 1 ≤ s := by omega
    have hrng := harange (s - 1) (by omega) (by omega)
    rcases hsL with h0 | hsep
    · omega
    · unfold notSep at hrng
      rw [hsep] at hrng
      simp at hrng
  have hmlInt : (e : Int) - (s : Int) ≤ (MaxEntityLen : Int) := by
    push_cast
    omega
  rcases Nat.eq_or_lt_of_le hsa with hcase | hcase
  · -- single word: the span ending at e starts at s
    subst hcase
    obtain ⟨u, w, hR⟩ := List.append_of_mem haMem
    have hpwR := hpw
    rw [hR, List.pairwise_append, List.pairwise_cons] at hpwR
    obtain ⟨hpwu, ⟨hsw, hpww⟩, hcross⟩ := hpwR
    have hbR : ∀ q ∈ tokenize T, q.1 < q.2 ∧ q.2 < T.length := hbounds
    have hu_ne : u ≠ [] := by
      intro hnil
      obtain ⟨q, hq, hqlt⟩ := hfirst
      rw [hR, hnil, List.nil_append] at hq
      rcases List.mem_cons.mp hq with hq1 | hq1
      · rw [hq1] at hqlt
        simp at hqlt
      · have h1 := hsw q hq1
        have h2 := (hbR q (by rw [hR, hnil, List.nil_append]; exact List.mem_cons_of_mem _ hq1)).1
        omega
    rw [find_resultsFor, hR, spansHits_append, List.count_append]
    have hz1 : List.count (⟨slice T s e, s⟩ : Entity) (spansHits T g u []) = 0 := by
      refine count_spansHits_zero hse (by omega) ?_
      intro sp hsp
      have hb := hbR sp (by rw [hR]; exact List.mem_append_left _ hsp)
      have hc := hcross sp hsp (s, e) (List.mem_cons_self _ _)
      exact ⟨by omega, by omega⟩
    rw [hz1, Nat.zero_add]
    set W := u.foldl (fun w sp => (shift sp w).2) [] with hWdef
    set K := (u.length + 1) - 20 with hKdef
    have hW1eq : (shift (s, e) W).2 = u.drop K ++ [(s, e)] := by
      have h1 : (shift (s, e) W).2 =
          (u ++ [(s, e)]).foldl (fun w sp => (shift sp w).2) [] := by
        rw [List.foldl_append]
        rfl
      rw [h1, foldShift_eq _ [] (by simp)]
      simp only [List.nil_append, List.length_append, List.length_cons,
        List.length_nil]
      rw [List.drop_append_of_le_length (by omega)]
    have hsingle : spansHits T g ((s, e) :: w) W =
        (if 1 < ((shift (s, e) W).2).length then
          match ((shift (s, e) W).2).reverse with
          | [] => []
          | p2 :: olders => runStackHits T g p2 (p2 :: olders)
        else []) ++ spansHits T g w (shift (s, e) W).2 := rfl
    have hulen : 1 ≤ u.length := by
      cases u with
      | nil => simp at hu_ne
      | cons _ _ => simp
    have hlen1 : 1 < ((shift (s, e) W).2).length := by
      rw [hW1eq]
      simp only [List.length_append, List.length_drop, List.length_cons,
        List.length_nil]
      omega
    have hrev : ((shift (s, e) W).2).reverse = (s, e) :: (u.drop K).reverse := by
      rw [hW1eq, List.reverse_append]
      simp
    rw [hsingle, List.count_append, if_pos hlen1, hrev]
    have hwalk : List.count (⟨slice T s e, s⟩ : Entity)
        (runStackHits T g (s, e) ((s, e) :: (u.drop K).reverse)) =
        groupHits T g (s, e) (s, e) := by
      have h := count_runStackHits_target T g s e e s [] ((u.drop K).reverse)
        (by intro p hp; simp at hp)
        (by
          intro p hp
          rw [List.mem_reverse] at hp
          have hpu : p ∈ u := List.Sublist.subset (List.drop_sublist _ _) hp
          have hc := hcross p hpu (s, e) (List.mem_cons_self _ _)
          have hb := (hbR p (by rw [hR]; exact List.mem_append_left _ hpu)).1
          omega)
        hmlInt
      simpa using h
    rw [hwalk]
    have hz3 : List.count (⟨slice T s e, s⟩ : Entity)
        (spansHits T g w (shift (s, e) W).2) = 0 := by
      refine count_spansHits_zero hse (by omega) ?_
      intro sp hsp
      have hb := hbR sp (by
        rw [hR]
        exact List.mem_append_right _ (List.mem_cons_of_mem _ hsp))
      have hc := hsw sp hsp
      exact ⟨by omega, by omega⟩
    rw [hz3, Nat.add_zero]
    exact groupHits_eq_ciHits T g s e e s hwf hse (by omega)
  · -- several words: a separate span starts at s
    obtain ⟨bS, hsb, hsbMem⟩ := span_start_mem T s e hs0 hsL hse heT heS
    obtain ⟨u, t, hR0⟩ := List.append_of_mem hsbMem
    have haMem' := haMem
    rw [hR0] at haMem'
    have hpw0 := hpw
    rw [hR0, List.pairwise_append, List.pairwise_cons] at hpw0
    obtain ⟨hpwu, ⟨hst, hpwt⟩, hcross⟩ := hpw0
    have haInT : (a, e) ∈ t := by
      rcases List.mem_append.mp haMem' with h | h
      · exfalso
        have := hcross (a, e) h (s, bS) (List.mem_cons_self _ _)
        simp at this
        omega
      · rcases List.mem_cons.mp h with h1 | h1
        · exfalso
          injection h1 with h1 _
          omega
        · exact h1
    obtain ⟨v, w, hvw⟩ := List.append_of_mem haInT
    have hR : tokenize T = (u ++ (s, bS) :: v) ++ (a, e) :: w := by
      rw [hR0, hvw]
      simp
    have hbR : ∀ q ∈ tokenize T, q.1 < q.2 ∧ q.2 < T.length := hbounds
    -- relations inside t = v ++ (a, e) :: w
    have hpwt' := hpwt
    rw [hvw, List.pairwise_append, List.pairwise_cons] at hpwt'
    obtain ⟨hpwv, ⟨haw, hpww⟩, hcrossv⟩ := hpwt'
    have hsbS : s < bS := hsb
    have hv_gt : ∀ x ∈ v, s < x.1 := by
      intro x hx
      have := hst x (by rw [hvw]; exact List.mem_append_left _ hx)
      omega
    have hv_lt : ∀ x ∈ v, x.1 < a := by
      intro x hx
      have h1 := hcrossv x hx (a, e) (List.mem_cons_self _ _)
      have h2 := (hbR x (by
        rw [hR0, hvw]
        exact List.mem_append_right _ (List.mem_cons_of_mem _
          (List.mem_append_left _ hx)))).1
      simp at h1
      omega
    have hvbound : 2 * v.length ≤ a - s + 1 := by
      refine count_spans_bound v s a hpwv ?_
      intro q hq
      have hb := (hbR q (by
        rw [hR0, hvw]
        exact List.mem_append_right _ (List.mem_cons_of_mem _
          (List.mem_append_left _ hq)))).1
      exact ⟨hv_gt q hq, hb, hv_lt q hq⟩
    have hvlen : v.length + 2 ≤ 20 := by
      have : a ≤ e - 1 := by omega
      have : a - s ≤ MaxEntityLen - 1 := by
        unfold MaxEntityLen at hml ⊢
        omega
      unfold MaxEntityLen at this
      omega
    rw [find_resultsFor, hR, spansHits_append, List.count_append]
    set Qpre := u ++ (s, bS) :: v with hQdef
    have hz1 : List.count (⟨slice T s e, s⟩ : Entity) (spansHits T g Qpre []) = 0 := by
      refine count_spansHits_zero hse (by omega) ?_
      intro sp hsp
      have hbsp := hbR sp (by rw [hR]; exact List.mem_append_left _ hsp)
      rcases List.mem_append.mp hsp with h | h
      · have hc := hcross sp h (s, bS) (List.mem_cons_self _ _)
        simp at hc
        omega
      · rcases List.mem_cons.mp h with h1 | h1
        · have h2 : sp.2 = bS := by rw [h1]
          have hsba : bS < a := by
            have h3 : (a, e) ∈ t := by
              rw [hvw]
              exact List.mem_append_right _ (List.mem_cons_self _ _)
            have h4 := hst (a, e) h3
            simpa using h4
          omega
        · have h2 := hcrossv sp h1 (a, e) (List.mem_cons_self _ _)
          simp at h2
          omega
    rw [hz1, Nat.zero_add]
    set W := Qpre.foldl (fun w sp => (shift sp w).2) [] with hWdef
    set K := (Qpre.length + 1) - 20 with hKdef
    have hKu : K ≤ u.length := by
      rw [hKdef, hQdef]
      simp only [List.length_append, List.length_cons]
      omega
    have hW1eq : (shift (a, e) W).2 =
        u.drop K ++ ((s, bS) :: (v ++ [(a, e)])) := by
      have h1 : (shift (a, e) W).2 =
          (Qpre ++ [(a, e)]).foldl (fun w sp => (shift sp w).2) [] := by
        rw [List.foldl_append]
        rfl
      rw [h1, foldShift_eq _ [] (by simp)]
      have h2 : Qpre ++ [(a, e)] = u ++ ((s, bS) :: (v ++ [(a, e)])) := by
        rw [hQdef]
        simp
      rw [List.nil_append, h2]
      have h3 : (u ++ ((s, bS) :: (v ++ [(a, e)]))).length - 20 = K := by
        rw [hKdef, hQdef]
        simp only [List.length_append, List.length_cons, List.length_nil]
        omega
      rw [h3, List.drop_append_of_le_length hKu]
    have hlen1 : 1 < ((shift (a, e) W).2).length := by
      rw [hW1eq]
      simp only [List.length_append, List.length_cons, List.length_nil]
      omega
    have hsingle : spansHits T g ((a, e) :: w) W =
        (if 1 < ((shift (a, e) W).2).length then
          match ((shift (a, e) W).2).reverse with
          | [] => []
          | p2 :: olders => runStackHits T g p2 (p2 :: olders)
        else []) ++ spansHits T g w (shift (a, e) W).2 := rfl
    have hrev : ((shift (a, e) W).2).reverse =
        (a, e) :: (v.reverse ++ (s, bS) :: (u.drop K).reverse) := by
      rw [hW1eq]
      simp [List.reverse_append]
    rw [hsingle, List.count_append, if_pos hlen1, hrev]
    have hwalkeq : (a, e) :: (v.reverse ++ (s, bS) :: (u.drop K).reverse) =
        ((a, e) :: v.reverse) ++ (s, bS) :: (u.drop K).reverse := by
      simp
    have hwalk : List.count (⟨slice T s e, s⟩ : Entity)
        (runStackHits T g (a, e)
          ((a, e) :: (v.reverse ++ (s, bS) :: (u.drop K).reverse))) =
        groupHits T g (s, bS) (a, e) := by
      rw [hwalkeq]
      refine count_runStackHits_target T g s e bS a ((a, e) :: v.reverse)
        ((u.drop K).reverse) ?_ ?_ hmlInt
      · intro p hp
        rcases List.mem_cons.mp hp with h1 | h1
        · rw [h1]
          exact hcase
        · rw [List.mem_reverse] at h1
          exact hv_gt p h1
      · intro p hp
        rw [List.mem_reverse] at hp
        have hpu : p ∈ u := List.Sublist.subset (List.drop_sublist _ _) hp
        have hc := hcross p hpu (s, bS) (List.mem_cons_self _ _)
        have hb := (hbR p (by rw [hR0]; exact List.mem_append_left _ hpu)).1
        simp at hc
        omega
    rw [hwalk]
    have hz3 : List.count (⟨slice T s e, s⟩ : Entity)
        (spansHits T g w (shift (a, e) W).2) = 0 := by
      refine count_spansHits_zero hse (by omega) ?_
      intro sp hsp
      have hb := hbR sp (by
        rw [hR]
        exact List.mem_append_right _ (List.mem_cons_of_mem _ hsp))
      have hc := haw sp hsp
      exact ⟨by omega, by omega⟩
    rw [hz3, Nat.add_zero]
    exact groupHits_eq_ciHits T g s e bS a hwf hse (by omega)

/-! ## Store-level plumbing -/

theorem lookupA_none_of_not_mem {α β : Type} [DecidableEq α] :
    ∀ (m : List (α × β)) (k : α), (∀ p ∈ m, (p : α × β).1 ≠ k) →
      lookupA m k = none := by
  intro m
  induction m with
  | nil => intro k _; rfl
  | cons p rest ih =>
      intro k h
      obtain ⟨k0, v0⟩ := p
      have h0 : k0 ≠ k := h (k0, v0) (List.mem_cons_self _ _)
      rw [lookupA_cons_ne _ _ _ _ h0]
      exact ih k (fun q hq => h q (List.mem_cons_of_mem _ hq))

/-- On a well-formed store, the store-wide search read at a registered
group's name is the single-group search read at that group's stored name. -/
theorem findAll_resultsFor (T : List Char) {st : Store} {G : String}
    {g : Group} (hwf : StoreWF st) (hGg : (G, g) ∈ st) :
    resultsFor (Store.findAll st T) G = resultsFor (find T [g]) g.name := by
  have hmem : (G, g.find T) ∈ st.map (fun p => (p.1, p.2.find T)) :=
    List.mem_map.mpr ⟨(G, g), hGg, rfl⟩
  have hnd : ((st.map (fun p => (p.1, p.2.find T))).map Prod.fst).Nodup := by
    rw [List.map_map]
    exact hwf.keysNodup
  show resultsFor (st.map (fun p => (p.1, p.2.find T))) G = _
  unfold resultsFor
  rw [lookupA_of_mem _ _ _ hnd hmem]
  simp [Group.find, resultsFor]

/-- A phrase can only pass the per-character comparison against a candidate
at least as long. -/
theorem ciMatch_length_le :
    ∀ {a b : List Char}, ciMatch a b = true → a.length ≤ b.length := by
  intro a
  induction a with
  | nil => intro b _; simp
  | cons x xs ih =>
      intro b h
      cases b with
      | nil => simp [ciMatch] at h
      | cons y ys =>
          simp only [ciMatch, Bool.and_eq_true] at h
          have := ih h.2
          simp only [List.length_cons]
          omega

/-- `Add`'s loop dies at the first empty phrase, wherever it sits in the
argument list. -/
theorem addMany_empty_none :
    ∀ (pre : List (List Char)) (g : Group) (post : List (List Char)),
      Group.addMany g (pre ++ [] :: post) = none := by
  intro pre
  induction pre with
  | nil =>
      intro g post
      simp [Group.addMany, Group.addEntity, hash]
  | cons e pre' ih =>
      intro g post
      rw [List.cons_append]
      cases h : g.addEntity e with
      | none => simp [Group.addMany, h]
      | some g' => simp [Group.addMany, h, ih]

/-! ## The last character of the input -/

theorem getLast?_mem_of_ne_nil :
    ∀ (l : List Char), l ≠ [] → ∃ c, l.getLast? = some c ∧ c ∈ l := by
  intro l
  induction l with
  | nil => intro h; exact absurd rfl h
  | cons x xs ih =>
      intro _
      cases xs with
      | nil => exact ⟨x, by simp, by simp⟩
      | cons y ys =>
          obtain ⟨c, hc, hm⟩ := ih (by simp)
          exact ⟨c, by rw [List.getLast?_cons_cons]; exact hc,
            List.mem_cons_of_mem _ hm⟩

theorem getLast?_dropWhile {p : Char → Bool} :
    ∀ (l : List Char), l.dropWhile p ≠ [] →
      (l.dropWhile p).getLast? = l.getLast? := by
  intro l
  induction l with
  | nil => intro h; simp at h
  | cons x xs ih =>
      intro h
      by_cases hp : p x = true
      · rw [List.dropWhile_cons_of_pos hp] at h ⊢
        rw [ih h]
        have hxs : xs ≠ [] := by
          intro hnil
          rw [hnil] at h
          simp at h
        cases xs with
        | nil => simp at hxs
        | cons y ys => rw [List.getLast?_cons_cons]
      · rw [List.dropWhile_cons_of_neg hp]

/-- Relation between all maximal runs and the separator-closed ones: they
agree exactly when the input is empty or ends in a separator character;
otherwise exactly one trailing run, ending at the end of the input, is
dropped. -/
theorem specRuns_trailing :
    ∀ (n : Nat) (l : List Char) (off : Nat), l.length ≤ n →
      ((l = [] ∨ isSep ((l.getLast?).getD ' ') = true) →
          specRuns off l = specClosedRuns off l) ∧
      (l ≠ [] → isSep ((l.getLast?).getD ' ') = false →
          ∃ a, specRuns off l = specClosedRuns off l ++ [(a, off + l.length)]) := by
  intro n
  induction n with
  | zero =>
      intro l off hl
      have hnil : l = [] := List.eq_nil_of_length_eq_zero (Nat.le_zero.mp hl)
      subst hnil
      exact ⟨fun _ => rfl, fun h _ => absurd rfl h⟩
  | succ n ih =>
      intro l off hl
      cases l with
      | nil => exact ⟨fun _ => rfl, fun h _ => absurd rfl h⟩
      | cons c rest =>
          by_cases hc : isSep c = true
          · have hrl : rest.length ≤ n := by simpa using hl
            have hrec := ih rest (off + 1) hrl
            cases rest with
            | nil =>
                refine ⟨fun _ => ?_, fun _ hLast => ?_⟩
                · rw [specRuns_sep off _ hc, specClosedRuns_sep off _ hc]
                  rfl
                have hcc : ((List.getLast? [c]).getD ' ') = c := rfl
                rw [hcc] at hLast
                exact absurd hc (by simp [hLast])
            | cons d ds =>
                have hLastEq : ((c :: d :: ds).getLast?).getD ' ' =
                    ((d :: ds).getLast?).getD ' ' := by
                  rw [List.getLast?_cons_cons]
                constructor
                · intro hLast
                  rw [specRuns_sep off _ hc, specClosedRuns_sep off _ hc]
                  refine hrec.1 (Or.inr ?_)
                  rcases hLast with h0 | h0
                  · exact absurd h0 (by simp)
                  · rw [← hLastEq]
                    exact h0
                · intro _ hLast
                  rw [specRuns_sep off _ hc, specClosedRuns_sep off _ hc]
                  obtain ⟨a, ha⟩ := hrec.2 (by simp)
                    (by rw [← hLastEq]; exact hLast)
                  refine ⟨a, ?_⟩
                  rw [ha]
                  have heq : off + 1 + (d :: ds).length =
                      off + (c :: d :: ds).length := by
                    simp only [List.length_cons]
                    omega
                  rw [heq]
          · have hcn : isSep c = false := by simpa using hc
            have hrl : rest.length ≤ n := by simpa using hl
            rw [specRuns_word off rest hcn, specClosedRuns_word off rest hcn]
            by_cases hz : (rest.dropWhile notSep).length = 0
            · have hdnil : rest.dropWhile notSep = [] :=
                List.eq_nil_of_length_eq_zero hz
              have hall : ∀ x ∈ rest, notSep x = true := by
                intro x hx
                exact List.dropWhile_eq_nil_iff.mp hdnil x hx
              have htk : rest.takeWhile notSep = rest :=
                takeWhile_eq_self_of_all hall
              constructor
              · intro hLast
                exfalso
                rcases hLast with h0 | h0
                · simp at h0
                · obtain ⟨x, hx1, hx2⟩ :=
                    getLast?_mem_of_ne_nil (c :: rest) (by simp)
                  rw [hx1] at h0
                  simp only [Option.getD_some] at h0
                  rcases List.mem_cons.mp hx2 with h1 | h1
                  · rw [h1, hcn] at h0
                    exact Bool.noConfusion h0
                  · have hns := hall x h1
                    simp [notSep] at hns
                    exact absurd h0 (by simp [hns])
              · intro _ _
                rw [if_pos hz, hdnil, htk, specRuns_nil]
                refine ⟨off, ?_⟩
                have heq : off + 1 + rest.length = off + (c :: rest).length := by
                  simp only [List.length_cons]
                  omega
                rw [heq]
                rfl
            · rw [if_neg hz]
              have hd : rest.dropWhile notSep ≠ [] := by
                intro h
                rw [h] at hz
                simp at hz
              have hdlen : (rest.dropWhile notSep).length ≤ n :=
                le_trans (length_dropWhile_le _ _) hrl
              have hrec := ih (rest.dropWhile notSep)
                (off + 1 + (rest.takeWhile notSep).length) hdlen
              have hLastEq : ((rest.dropWhile notSep).getLast?).getD ' ' =
                  ((c :: rest).getLast?).getD ' ' := by
                rw [getLast?_dropWhile rest hd]
                have hrne : rest ≠ [] := by
                  intro h
                  rw [h] at hd
                  simp at hd
                cases rest with
                | nil => exact absurd rfl hrne
                | cons d ds => rw [List.getLast?_cons_cons]
              constructor
              · intro hLast
                rcases hLast with h0 | h0
                · simp at h0
                · rw [hrec.1 (Or.inr (by rw [hLastEq]; exact h0))]
              · intro _ hLast
                obtain ⟨a, ha⟩ := hrec.2 hd (by rw [hLastEq]; exact hLast)
                refine ⟨a, ?_⟩
                have hsum : (rest.takeWhile notSep).length +
                    (rest.dropWhile notSep).length = rest.length :=
                  takeWhile_add_dropWhile_length notSep rest
                have hend : off + 1 + (rest.takeWhile notSep).length +
                    (rest.dropWhile notSep).length =
                    off + (c :: rest).length := by
                  simp only [List.length_cons]
                  omega
                rw [List.cons_append, ha, hend]

/-! ## Exhaustive variants of the walk and of the bucket scan

`runStackCont` follows the spec's description of the backward walk with the
early exit replaced by an exhaustive walk that merely skips an over-long
candidate; `scanBucketCont` follows the spec's words for the bucket scan
(C6): a phrase of the wrong length is "discarded individually" and the rest
of the bucket is still compared. -/

/-- The backward walk without the monotonic early exit: every window entry
is visited, over-long candidates are skipped individually. -/
def runStackCont (rs : List Char) (groups : List Group) (p2 : Nat × Nat) :
    List (Nat × Nat) → Results → Results
  | [], results => results
  | p1 :: older, results =>
      if (p2.2 : Int) - (p1.1 : Int) > (MaxEntityLen : Int) then
        runStackCont rs groups p2 older results
      else runStackCont rs groups p2 older (checkGroups rs p1 p2 groups results)

theorem runStackCont_skip_all (rs : List Char) (groups : List Group)
    (p2 : Nat × Nat) :
    ∀ (walk : List (Nat × Nat)) (res : Results),
      (∀ p1 ∈ walk, (p2.2 : Int) - (p1.1 : Int) > (MaxEntityLen : Int)) →
      runStackCont rs groups p2 walk res = res := by
  intro walk
  induction walk with
  | nil => intro res _; rfl
  | cons p1 older ih =>
      intro res h
      rw [runStackCont, if_pos (h p1 (List.mem_cons_self _ _))]
      exact ih res (fun q hq => h q (List.mem_cons_of_mem _ hq))

/-- The bucket scan with `continue` semantics in place of the `break`. -/
def scanBucketCont (rs : List Char) (gname : String) (p1 p2 : Nat × Nat) :
    List (List Char) → Results → Results
  | [], results => results
  | ent :: more, results =>
      if (ent.length : Int) ≠ (p2.2 : Int) - (p1.1 : Int) then
        scanBucketCont rs gname p1 p2 more results
      else
        scanBucketCont rs gname p1 p2 more
          (if ciMatch ent (slice rs p1.1 p2.2) then
            resAppend results gname ⟨slice rs p1.1 p2.2, p1.1⟩
          else results)

theorem scanBucketCont_skip_all (rs : List Char) (gname : String)
    (p1 p2 : Nat × Nat) :
    ∀ (ents : List (List Char)) (res : Results),
      (∀ x ∈ ents, (x.length : Int) ≠ (p2.2 : Int) - (p1.1 : Int)) →
      scanBucketCont rs gname p1 p2 ents res = res := by
  intro ents
  induction ents with
  | nil => intro res _; rfl
  | cons ent more ih =>
      intro res h
      rw [scanBucketCont, if_pos (h ent (List.mem_cons_self _ _))]
      exact ih res (fun q hq => h q (List.mem_cons_of_mem _ hq))

/-- On a bucket whose phrases all share one length — as every bucket built
by `Add` does — the `break` and the `continue` reading of the length
recheck coincide. -/
theorem scanBucket_eq_cont_of_homog (rs : List Char) (gname : String)
    (p1 p2 : Nat × Nat) :
    ∀ (ents : List (List Char)) (res : Results),
      (∀ x ∈ ents, ∀ y ∈ ents, x.length = y.length) →
      scanBucket rs gname p1 p2 ents res =
        scanBucketCont rs gname p1 p2 ents res := by
  intro ents
  induction ents with
  | nil => intro res _; rfl
  | cons ent more ih =>
      intro res hhom
      by_cases hne : (ent.length : Int) ≠ (p2.2 : Int) - (p1.1 : Int)
      · rw [scanBucket, if_pos hne, scanBucketCont, if_pos hne]
        rw [scanBucketCont_skip_all]
        intro x hx
        have := hhom x (List.mem_cons_of_mem _ hx) ent (List.mem_cons_self _ _)
        rw [this]
        exact hne
      · rw [scanBucket, if_neg hne, scanBucketCont, if_neg hne]
        exact ih _ (fun x hx y hy =>
          hhom x (List.mem_cons_of_mem _ hx) y (List.mem_cons_of_mem _ hy))

/-! ## The claims -/

/-- C2: in a single pass, the tokenizer emits exactly the half-open
code-point spans of maximal runs of non-separator characters, in order of
occurrence, except that a trailing word reaching the end of the input
without a following separator is not emitted: the emitted spans are the
separator-closed maximal runs, every emitted span ends strictly before the
end of the input, and the full maximal-run list exceeds the emitted list by
exactly one span ending at the input's end precisely when the input is
nonempty and its last character is a non-separator. -/
theorem C2_tokenizer_spans (rs : List Char) :
    tokenize rs = specClosedRuns 0 rs ∧
    (∀ q ∈ tokenize rs, q.2 < rs.length) ∧
    ∃ tail : List (Nat × Nat),
      specRuns 0 rs = tokenize rs ++ tail ∧
      (∀ q ∈ tail, q.2 = rs.length) ∧
      (tail = [] ↔ (rs = [] ∨ isSep ((rs.getLast?).getD ' ') = true)) := by
  have h1 := tokenize_eq_specClosedRuns rs
  have h2 := (tokenize_props rs).1
  refine ⟨h1, fun q hq => (h2 q hq).2, ?_⟩
  by_cases hcase : rs = [] ∨ isSep ((rs.getLast?).getD ' ') = true
  · refine ⟨[], ?_, by simp, by simp [hcase]⟩
    rw [List.append_nil, h1]
    exact (specRuns_trailing rs.length rs 0 le_rfl).1 hcase
  · push_neg at hcase
    obtain ⟨hne, hsep⟩ := hcase
    have hsep' : isSep ((rs.getLast?).getD ' ') = false := by simpa using hsep
    obtain ⟨a, ha⟩ := (specRuns_trailing rs.length rs 0 le_rfl).2 hne hsep'
    refine ⟨[(a, rs.length)], ?_, ?_, ?_⟩
    · rw [h1]
      simpa using ha
    · intro q hq
      simp at hq
      rw [hq]
    · constructor
      · intro h
        simp at h
      · intro h
        exfalso
        rcases h with h | h
        · exact hne h
        · exact absurd h (by simp [hsep'])

/-- Models Go `append` on a slice of `pair`s carried with its backing
array's capacity: under capacity the element fits in place and the capacity
is unchanged; at capacity the runtime reallocates, and the new capacity is
`grow` of the old one (implementation-defined; every Go runtime at least
doubles the old capacity for slices this small). -/
def appendC (grow : Nat → Nat) :
    List (Nat × Nat) × Nat → (Nat × Nat) → List (Nat × Nat) × Nat
  | (s, c), n => if s.length < c then (s ++ [n], c) else (s ++ [n], grow c)

/-- Models `shift` (`src/fastentity.go:45-53`) on a slice with its live
capacity, as the program runs it: `len(s) == cap(s)` compares against the
backing array's current capacity, and the eviction appends to `s[1:]`,
whose capacity is one less than `s`'s. -/
def shiftLive (grow : Nat → Nat) (n : Nat × Nat) :
    List (Nat × Nat) × Nat → (Nat × Nat) × (List (Nat × Nat) × Nat)
  | (s, c) =>
      if s.length = 0 then ((0, 0), appendC grow (s, c) n)
      else if s.length = c then (s.headI, appendC grow (s.tail, c - 1) n)
      else (s.headI, appendC grow (s, c) n)

theorem shiftLive_push (grow : Nat → Nat) (n : Nat × Nat)
    (s : List (Nat × Nat)) (c : Nat) (h : s.length < c) :
    (shiftLive grow n (s, c)).2 = (s ++ [n], c) := by
  unfold shiftLive
  dsimp only
  by_cases h0 : s.length = 0
  · rw [if_pos h0]
    unfold appendC
    dsimp only
    rw [if_pos h]
  · rw [if_neg h0, if_neg (by omega)]
    unfold appendC
    dsimp only
    rw [if_pos h]

theorem shiftLive_evict (grow : Nat → Nat) (n : Nat × Nat)
    (s : List (Nat × Nat)) (c : Nat) (h : s.length = c) (hc : 1 ≤ c) :
    (shiftLive grow n (s, c)).2 = (s.tail ++ [n], grow (c - 1)) := by
  unfold shiftLive
  dsimp only
  rw [if_neg (by omega), if_pos h]
  unfold appendC
  dsimp only
  rw [if_neg (by rw [List.length_tail, h]; omega)]

/-- Pushing through `shiftLive` while under capacity just appends. -/
theorem foldShiftLive_fill (grow : Nat → Nat) (c : Nat) :
    ∀ (spans : List (Nat × Nat)) (w : List (Nat × Nat)),
      w.length + spans.length ≤ c →
      spans.foldl (fun w sp => (shiftLive grow sp w).2) (w, c) =
        (w ++ spans, c) := by
  intro spans
  induction spans with
  | nil => intro w _; simp
  | cons sp more ih =>
      intro w h
      rw [List.foldl_cons,
        shiftLive_push grow sp w c (by simp at h; omega)]
      rw [ih (w ++ [sp]) (by simp at h ⊢; omega)]
      simp

/-- C3: the claimed fixed-capacity-20 ring buffer is false of the program.
The pinned-capacity model (`windowAfter`) keeps the window within 20 spans,
but the live-capacity window that the program actually maintains
(`shiftLive`) holds 21 spans once 22 words have been pushed, for every
reallocation growth giving at least double the old capacity (as every Go
runtime does for slices this small): the first eviction's
`append(s[1:], n)` reallocates, and from then on `len(s) != cap(s)`, so no
further eviction bounds the window at 20. -/
theorem C3_window_overflow (grow : Nat → Nat) (hg : ∀ c, 2 * c ≤ grow c)
    (spans : List (Nat × Nat)) (hn : spans.length = 22) :
    (windowAfter spans).length ≤ 20 ∧
    20 < ((spans.foldl (fun w sp => (shiftLive grow sp w).2)
      ([], 20)).1).length := by
  refine ⟨windowAfter_length_le _, ?_⟩
  obtain ⟨u, rest, hu, hu20⟩ :
      ∃ u rest, spans = u ++ rest ∧ u.length = 20 :=
    ⟨spans.take 20, spans.drop 20, (List.take_append_drop _ _).symm,
      by rw [List.length_take]; omega⟩
  have hrl : rest.length = 2 := by
    have := congrArg List.length hu
    simp at this
    omega
  obtain ⟨a, b, rfl⟩ : ∃ a b, rest = [a, b] := by
    match rest, hrl with
    | [a, b], _ => exact ⟨a, b, rfl⟩
  subst hu
  rw [List.foldl_append,
    foldShiftLive_fill grow 20 u [] (by simp [hu20])]
  simp only [List.nil_append]
  rw [List.foldl_cons, shiftLive_evict grow a u 20 hu20 (by omega)]
  rw [List.foldl_cons, List.foldl_nil,
    shiftLive_push grow b (u.tail ++ [a]) (grow 19) (by
      have := hg 19
      simp [List.length_tail, hu20]
      omega)]
  simp [List.length_tail, hu20]

/-- C3 witness: 22 concrete spans overflow the live-capacity window under
the doubling growth. -/
theorem C3_window_overflow_witness :
    (windowAfter ((List.range 22).map (fun i => (2 * i, 2 * i + 1)))).length
      ≤ 20 ∧
    20 < ((((List.range 22).map (fun i => (2 * i, 2 * i + 1))).foldl
      (fun w sp => (shiftLive (fun c => 2 * c) sp w).2) ([], 20)).1).length :=
  C3_window_overflow (fun c => 2 * c) (fun c => le_rfl)
    ((List.range 22).map (fun i => (2 * i, 2 * i + 1))) (by decide)

/-- C4: on a non-empty span the hash key is the lowercased first
`min 3 length` characters followed by the `%03d` rendering of the length;
hence equal-length spans with equal case-folded three-character prefixes
share their bucket key. -/
theorem C4_hash_key (a b : List Char) (ha : a ≠ [])
    (hlen : a.length = b.length)
    (hm : (a.take 3).map toLower = (b.take 3).map toLower) :
    hash a = some ((a.take 3).map toLower ++ pad3 a.length) ∧
    hash a = hash b := by
  have hstruct : ∀ (x : List Char), x ≠ [] →
      hash x = some ((x.take 3).map toLower ++ pad3 x.length) := by
    intro x hx
    match x, hx with
    | [r0], _ => rfl
    | [r0, r1], _ => rfl
    | r0 :: r1 :: r2 :: t, _ => rfl
  have hb : b ≠ [] := by
    intro h
    subst h
    simp at hlen
    exact ha hlen
  refine ⟨hstruct a ha, ?_⟩
  rw [hstruct a ha, hstruct b hb, hm, hlen]

/-- C4 witness: the key of `"PHP"` and its agreement with `"php"`. -/
theorem C4_hash_key_witness :
    hash ['P', 'H', 'P'] =
      some (((['P', 'H', 'P'] : List Char).take 3).map toLower ++
        pad3 (['P', 'H', 'P'] : List Char).length) ∧
    hash ['P', 'H', 'P'] = hash ['p', 'h', 'p'] :=
  C4_hash_key ['P', 'H', 'P'] ['p', 'h', 'p'] (by decide) (by decide) (by decide)

/-- On a walk with strictly decreasing span starts (newest first, as the
window reversed always is), the early-exit walk equals the exhaustive
walk. -/
theorem runStack_eq_cont_of_sorted (rs : List Char) (groups : List Group)
    (p2 : Nat × Nat) :
    ∀ (walk : List (Nat × Nat)) (res : Results),
      List.Pairwise (fun p q => q.1 < p.1) walk →
      runStack rs groups p2 walk res = runStackCont rs groups p2 walk res := by
  intro walk
  induction walk with
  | nil => intro res _; rfl
  | cons p1 older ih =>
      intro res hs
      rw [List.pairwise_cons] at hs
      by_cases hbrk : (p2.2 : Int) - (p1.1 : Int) > (MaxEntityLen : Int)
      · rw [runStack, if_pos hbrk, runStackCont, if_pos hbrk]
        rw [runStackCont_skip_all rs groups p2 older res (fun q hq => by
          have := hs.1 q hq
          omega)]
      · rw [runStack, if_neg hbrk, runStackCont, if_neg hbrk]
        exact ih _ hs.2

/-- C5: along a backward walk over window entries with strictly decreasing
starts, the candidate lengths `p2.end - p1.start` strictly increase, so the
walk that stops at the first over-long candidate appends exactly what an
exhaustive walk over the whole window would. -/
theorem C5_early_exit (rs : List Char) (groups : List Group) (p2 : Nat × Nat)
    (walk : List (Nat × Nat)) (res : Results)
    (hsorted : List.Pairwise (fun p q => q.1 < p.1) walk) :
    List.Pairwise
      (fun p q => (p2.2 : Int) - (p.1 : Int) < (p2.2 : Int) - (q.1 : Int))
      walk ∧
    runStack rs groups p2 walk res = runStackCont rs groups p2 walk res :=
  ⟨hsorted.imp (fun h => by omega),
    runStack_eq_cont_of_sorted rs groups p2 walk res hsorted⟩

/-- C5 witness: a concrete sorted walk with an over-long older entry. -/
theorem C5_early_exit_witness :
    List.Pairwise
      (fun p q : Nat × Nat =>
        ((40 : Nat) : Int) - (p.1 : Int) < ((40 : Nat) : Int) - (q.1 : Int))
      [(5, 6), (1, 2)] ∧
    runStack [] [] (0, 40) [(5, 6), (1, 2)] [] =
      runStackCont [] [] (0, 40) [(5, 6), (1, 2)] [] :=
  C5_early_exit [] [] (0, 40) [(5, 6), (1, 2)] [] (by decide)

/-- C8: the store-wide search carries matches only for registered group
names; reading any unregistered name out of its result yields the empty
list, not an error. -/
theorem C8_absent_group (st : Store) (T : List Char) (G : String)
    (hG : ∀ p ∈ st, (p : String × Group).1 ≠ G) :
    resultsFor (Store.findAll st T) G = [] := by
  show resultsFor (st.map (fun p => (p.1, p.2.find T))) G = []
  unfold resultsFor
  rw [lookupA_none_of_not_mem]
  · rfl
  · intro p hp
    rw [List.mem_map] at hp
    obtain ⟨q, hq, rfl⟩ := hp
    exact hG q hq

/-- C8 witness: an unregistered name reads as the empty list on a concrete
store. -/
theorem C8_absent_group_witness :
    resultsFor (Store.findAll (Store.new ["locations"]) ['a', 'b']) "jobs" = [] :=
  C8_absent_group (Store.new ["locations"]) ['a', 'b'] "jobs" (by decide)

/-- C9: `Add` called with an empty phrase anywhere in its argument list
panics (modelled `none`): the hash function reads the first character
unconditionally, and the empty sequence has none. -/
theorem C9_add_empty_phrase (st : Store) (name : String)
    (pre post : List (List Char)) :
    Store.add st name (pre ++ [] :: post) = none ∧ hash [] = none := by
  refine ⟨?_, rfl⟩
  simp [Store.add, addMany_empty_none]

/-- C6 counterexample: in a bucket holding first a phrase of the wrong
length and then one of the right length, the length mismatch aborts the
whole bucket scan (`break`), so the later matching phrase is never
compared; with the two phrases swapped the match is found. -/
theorem C6_counterexample :
    resultsFor
        (find ['x', ' ', 'a', 'b', 'c', ' ']
          [⟨"g", [(['a', 'b', 'c', '0', '0', '3'],
            [['a', 'b', 'c', 'd'], ['a', 'b', 'c']])], 10⟩]) "g" = [] ∧
    resultsFor
        (find ['x', ' ', 'a', 'b', 'c', ' ']
          [⟨"g", [(['a', 'b', 'c', '0', '0', '3'],
            [['a', 'b', 'c'], ['a', 'b', 'c', 'd']])], 10⟩]) "g" =
      [⟨['a', 'b', 'c'], 2⟩] := ⟨rfl, rfl⟩

/-- C6 (amended): the length recheck aborts the bucket scan at the first
mismatch instead of discarding individually; on the buckets `Add` actually
builds — whose phrases all share one length, pinned by the hash key — the
aborting scan and the individually-discarding scan coincide. -/
theorem C6_bucket_scan (rs : List Char) (g : Group) (p1 p2 : Nat × Nat)
    (k : List Char) (b : List (List Char)) (res : Results)
    (hwf : GroupWF g) (hkb : (k, b) ∈ g.entities) :
    scanBucket rs g.name p1 p2 b res = scanBucketCont rs g.name p1 p2 b res := by
  refine scanBucket_eq_cont_of_homog rs g.name p1 p2 b res ?_
  intro x hx y hy
  exact hash_eq_length (hwf.buckets (k, b) hkb x hx) (hwf.buckets (k, b) hkb y hy)

/-- C6 witness: the two scans agree on a concrete well-formed bucket. -/
theorem C6_bucket_scan_witness :
    scanBucket ['x', ' ', 'a', 'b', ' '] "g" (2, 4) (2, 4) [['a', 'b']] [] =
      scanBucketCont ['x', ' ', 'a', 'b', ' '] "g" (2, 4) (2, 4)
        [['a', 'b']] [] :=
  C6_bucket_scan ['x', ' ', 'a', 'b', ' ']
    ⟨"g", [(['a', 'b', '0', '0', '2'], [['a', 'b']])], 2⟩ (2, 4) (2, 4)
    ['a', 'b', '0', '0', '2'] [['a', 'b']] []
    ⟨by decide, by decide, by decide⟩ (by decide)

/-- C7: on any store reachable through `New`/`Add`, every reported match is
at least one code point long, at most `MaxEntityLen` long, and at most as
long as the longest phrase registered in the group it is reported for
(hence also at most the group's recorded `maxLen`). -/
theorem C7_match_length_bounds (st : Store) (T : List Char) (G : String)
    (y : Entity) (hb : Built st)
    (hy : y ∈ resultsFor (Store.findAll st T) G) :
    1 ≤ y.text.length ∧ y.text.length ≤ MaxEntityLen ∧
    ∃ g : Group, (G, g) ∈ st ∧ y.text.length ≤ maxPhraseLen g ∧
      y.text.length ≤ g.maxLen := by
  have hwf := built_storeWF hb
  unfold Store.findAll resultsFor at hy
  rcases hl : lookupA (st.map (fun p => (p.1, p.2.find T))) G with _ | v
  · rw [hl] at hy
    simp at hy
  · rw [hl] at hy
    simp only [Option.getD_some] at hy
    have hmm := mem_of_lookupA _ _ _ hl
    rw [List.mem_map] at hmm
    obtain ⟨⟨G0, g⟩, hpmem, hpeq⟩ := hmm
    injection hpeq with hG0 hv
    subst hG0
    subst hv
    rw [show Group.find g T = resultsFor (find T [g]) g.name from rfl,
      find_resultsFor] at hy
    obtain ⟨sp, hsp, p1, hyeq, hnb, hpos⟩ := mem_spansHits hy
    obtain ⟨hnmax, k, ents, ent, hhk, hlk, hent, hlen, hcm⟩ := groupHits_pos hpos
    have hgwf : GroupWF g := hwf.groups (G0, g) hpmem
    have hentk : (k, ents) ∈ g.entities := mem_of_lookupA _ _ _ hlk
    have hall : ent ∈ allPhrases g := mem_allPhrases hentk hent
    have hlsl : (slice T p1.1 sp.2).length = ent.length := by
      have h1 : ent.length ≤ (slice T p1.1 sp.2).length := ciMatch_length_le hcm
      have h2 : (slice T p1.1 sp.2).length ≤ sp.2 - p1.1 := by
        rw [slice_length]
        omega
      omega
    have hytext : y.text = slice T p1.1 sp.2 := congrArg Entity.text hyeq
    rw [hytext, hlsl]
    have hpos1 : 1 ≤ ent.length :=
      hash_pos (hgwf.buckets (k, ents) hentk ent hent)
    refine ⟨hpos1, by omega, g, hpmem, length_le_maxPhraseLen hall,
      hgwf.maxLen (k, ents) hentk ent hent⟩

/-- C7 witness: the bounds at a concrete built store and match. -/
theorem C7_match_length_bounds_witness :
    1 ≤ (⟨['a', 'b'], 2⟩ : Entity).text.length ∧
    (⟨['a', 'b'], 2⟩ : Entity).text.length ≤ MaxEntityLen ∧
    ∃ g : Group,
      ("g", g) ∈
        ([("g", ⟨"g", [(['a', 'b', '0', '0', '2'], [['a', 'b']])], 2⟩)] :
          Store) ∧
      (⟨['a', 'b'], 2⟩ : Entity).text.length ≤ maxPhraseLen g ∧
      (⟨['a', 'b'], 2⟩ : Entity).text.length ≤ g.maxLen :=
  C7_match_length_bounds
    [("g", ⟨"g", [(['a', 'b', '0', '0', '2'], [['a', 'b']])], 2⟩)]
    ['x', ' ', 'a', 'b', ' '] "g" ⟨['a', 'b'], 2⟩
    (Built.add (Store.new ["g"]) "g" [['a', 'b']] _ (Built.new ["g"])
      (by decide))
    (by decide)

/-- C1 counterexample: the phrase "ab" is registered and the input "ab"
contains it as a maximal word sequence bounded by the string's boundaries
at both ends, yet the search reports nothing: the trailing word is never
closed by a separator, so no candidate is ever formed. -/
theorem C1_counterexample :
    Store.add (Store.new ["g"]) "g" [['a', 'b']] =
      some [("g", ⟨"g", [(['a', 'b', '0', '0', '2'], [['a', 'b']])], 2⟩)] ∧
    resultsFor
        (Store.findAll
          [("g", ⟨"g", [(['a', 'b', '0', '0', '2'], [['a', 'b']])], 2⟩)]
          ['a', 'b']) "g" = [] := ⟨rfl, rfl⟩

/-- C1 (amended): a registered phrase is reported — at the occurrence's
code-point offset, with the input's own casing — for every occurrence that
begins at a word boundary, matches the phrase up to `ToLower`, is closed by
an actual separator character before the end of the input, fits the global
length cap, and is preceded by at least one separator-closed word. -/
theorem C1_occurrence_reported (st : Store) (G : String) (g : Group)
    (T P : List Char) (s : Nat)
    (hb : Built st) (hGg : (G, g) ∈ st) (hP : P ∈ allPhrases g)
    (hml : P.length ≤ MaxEntityLen)
    (hocc : (slice T s (s + P.length)).map toLower = P.map toLower)
    (heT : s + P.length < T.length)
    (hs0 : notSep (T.getD s ' ') = true)
    (hsL : s = 0 ∨ isSep (T.getD (s - 1) ' ') = true)
    (he1 : notSep (T.getD (s + P.length - 1) ' ') = true)
    (heS : isSep (T.getD (s + P.length) ' ') = true)
    (hprev : ∃ q ∈ tokenize T, q.2 < s + P.length) :
    (⟨slice T s (s + P.length), s⟩ : Entity) ∈
      resultsFor (Store.findAll st T) G := by
  have hwf := built_storeWF hb
  have hgwf : GroupWF g := hwf.groups (G, g) hGg
  have hPex : ∃ kb ∈ g.entities, P ∈ (kb : List Char × List (List Char)).2 := by
    unfold allPhrases at hP
    rw [List.mem_flatten] at hP
    obtain ⟨bb, hb1, hPb⟩ := hP
    rw [List.mem_map] at hb1
    obtain ⟨kb, hkb, hbb⟩ := hb1
    exact ⟨kb, hkb, by rw [hbb]; exact hPb⟩
  obtain ⟨⟨kk, bb⟩, hkb, hPb⟩ := hPex
  have hhP : hash P = some kk := hgwf.buckets (kk, bb) hkb P hPb
  have hPpos : 1 ≤ P.length := hash_pos hhP
  have hse : s < s + P.length := by omega
  have hhC : hash (slice T s (s + P.length)) = some kk := by
    rw [hash_congr hocc]
    exact hhP
  have hlk : lookupA g.entities kk = some bb :=
    lookupA_of_mem _ _ _ hgwf.keysNodup hkb
  have hbkt : bucketFor g (slice T s (s + P.length)) = bb := by
    unfold bucketFor
    rw [hhC]
    dsimp only
    rw [hlk]
    rfl
  have hci : 1 ≤ ciHits g (slice T s (s + P.length)) := by
    unfold ciHits
    rw [hbkt]
    have hPf : P ∈ bb.filter (fun ent =>
        decide (ent.map toLower = (slice T s (s + P.length)).map toLower)) := by
      rw [List.mem_filter]
      exact ⟨hPb, by simp [hocc]⟩
    exact List.length_pos_of_mem hPf
  have hcnt := find_count_master T g s (s + P.length) hgwf hse heT hs0 hsL
    he1 heS (by omega) hprev
  have hpos : 0 < List.count (⟨slice T s (s + P.length), s⟩ : Entity)
      (resultsFor (find T [g]) g.name) := by
    rw [hcnt]
    omega
  have hmem : (⟨slice T s (s + P.length), s⟩ : Entity) ∈
      resultsFor (find T [g]) g.name := by
    by_contra hq
    rw [List.count_eq_zero_of_not_mem hq] at hpos
    omega
  rw [findAll_resultsFor T hwf hGg]
  exact hmem

/-- C1 witness: the phrase "ab" is reported at offset 2 in "x ab ". -/
theorem C1_occurrence_reported_witness :
    (⟨slice ['x', ' ', 'a', 'b', ' '] 2 (2 + (['a', 'b'] : List Char).length),
        2⟩ : Entity) ∈
      resultsFor
        (Store.findAll
          [("g", ⟨"g", [(['a', 'b', '0', '0', '2'], [['a', 'b']])], 2⟩)]
          ['x', ' ', 'a', 'b', ' ']) "g" :=
  C1_occurrence_reported
    [("g", ⟨"g", [(['a', 'b', '0', '0', '2'], [['a', 'b']])], 2⟩)]
    "g" ⟨"g", [(['a', 'b', '0', '0', '2'], [['a', 'b']])], 2⟩
    ['x', ' ', 'a', 'b', ' '] ['a', 'b'] 2
    (Built.add (Store.new ["g"]) "g" [['a', 'b']] _ (Built.new ["g"])
      (by decide))
    (by decide) (by decide) (by decide) (by decide) (by decide) (by decide)
    (by decide) (by decide) (by decide) (by decide)

/-- C10 counterexample: "ab" is added twice; the input "ab" contains one
occurrence of the phrase, yet zero records (not two) are reported, the
occurrence being unreported for the same reason as in the C1
counterexample. -/
theorem C10_counterexample :
    Store.add (Store.new ["g"]) "g" [['a', 'b'], ['a', 'b']] =
      some [("g",
        ⟨"g", [(['a', 'b', '0', '0', '2'], [['a', 'b'], ['a', 'b']])], 2⟩)] ∧
    List.count (⟨['a', 'b'], 0⟩ : Entity)
      (resultsFor
        (Store.findAll
          [("g",
            ⟨"g", [(['a', 'b', '0', '0', '2'], [['a', 'b'], ['a', 'b']])], 2⟩)]
          ['a', 'b']) "g") = 0 := ⟨rfl, rfl⟩

/-- C10 (amended): under the occurrence conditions of the amended C1, a
detected candidate is reported exactly once per case-equal entry of its
bucket; since each `Add` appends one entry, `k` registrations of one phrase
yield `k` entries and hence `k` records per detected occurrence. -/
theorem C10_duplicates_counted (st : Store) (G : String) (g : Group)
    (T : List Char) (s e : Nat)
    (hb : Built st) (hGg : (G, g) ∈ st)
    (hse : s < e) (heT : e < T.length)
    (hs0 : notSep (T.getD s ' ') = true)
    (hsL : s = 0 ∨ isSep (T.getD (s - 1) ' ') = true)
    (he1 : notSep (T.getD (e - 1) ' ') = true)
    (heS : isSep (T.getD e ' ') = true)
    (hml : e - s ≤ MaxEntityLen)
    (hprev : ∃ q ∈ tokenize T, q.2 < e) :
    List.count (⟨slice T s e, s⟩ : Entity)
        (resultsFor (Store.findAll st T) G) =
      ciHits g (slice T s e) := by
  have hwf := built_storeWF hb
  rw [findAll_resultsFor T hwf hGg]
  exact find_count_master T g s e (hwf.groups (G, g) hGg) hse heT hs0 hsL
    he1 heS hml hprev

/-- C10 witness: "ab" added twice is reported twice (the count equals the
two case-equal bucket entries) for the closed occurrence in "x ab ". -/
theorem C10_duplicates_counted_witness :
    List.count (⟨slice ['x', ' ', 'a', 'b', ' '] 2 4, 2⟩ : Entity)
        (resultsFor
          (Store.findAll
            [("g",
              ⟨"g", [(['a', 'b', '0', '0', '2'],
                [['a', 'b'], ['a', 'b']])], 2⟩)]
            ['x', ' ', 'a', 'b', ' ']) "g") =
      ciHits
        ⟨"g", [(['a', 'b', '0', '0', '2'], [['a', 'b'], ['a', 'b']])], 2⟩
        (slice ['x', ' ', 'a', 'b', ' '] 2 4) :=
  C10_duplicates_counted
    [("g", ⟨"g", [(['a', 'b', '0', '0', '2'], [['a', 'b'], ['a', 'b']])], 2⟩)]
    "g" ⟨"g", [(['a', 'b', '0', '0', '2'], [['a', 'b'], ['a', 'b']])], 2⟩
    ['x', ' ', 'a', 'b', ' '] 2 4
    (Built.add (Store.new ["g"]) "g" [['a', 'b'], ['a', 'b']] _
      (Built.new ["g"]) (by decide))
    (by decide) (by decide) (by decide) (by decide) (by decide) (by decide)
    (by decide) (by decide) (by decide)

end Fastentity
